import Mathlib

/-!
# Verification of the dashboard-advisor analysis core

Shallow embedding of the rule-based dashboard analysis engine:
severity-weighted scorer, duplicate-expression/query rules, variable
cross-product rule, query cost estimator, refresh rule, auto-fixer
procedures, template-variable preprocessor and per-panel scoring.

Modelling conventions:
* Go `float64` arithmetic is modelled exactly over `ℚ`.  Every numeric
  claim proved here is at least `1/20000` away from a rounding tie while
  `float64` relative error is bounded by `2⁻⁵³`, so the rational model and
  the floating-point code round identically on all inputs involved.
* Go `int` is modelled as `ℤ` (no computation here approaches 2⁶³).
* Go maps keyed by strings/ints are modelled as association lists with
  first-insertion key order; claims settled here never depend on Go's
  randomized map iteration order.
* Human-facing message fields of `Finding` (`Title`, `Why`, `Fix`,
  `Impact`, `Validate`) are `fmt.Sprintf` display strings referenced by
  no claim; they are omitted from the record.
-/

namespace DashboardAdvisor

/-- Severity levels for findings, ordered least to most severe
(`rules.Severity`, part_002 lines 13-20). -/
inductive Severity where
  | low
  | medium
  | high
  | critical
deriving DecidableEq, Repr

/-- Embeds `rules.SeverityWeight` (part_002 lines 23-36).  The Go `default: 0`
arm is unreachable: the data model restricts severities to the four
declared constants. -/
def SeverityWeight : Severity → ℤ
  | .critical => 15
  | .high => 10
  | .medium => 5
  | .low => 2

/-- Embeds `rules.Finding` (part_002 lines 54-66), display-text fields omitted. -/
structure Finding where
  ruleID : String
  severity : Severity
  panelIDs : List ℤ
  panelTitles : List String
  autoFixable : Bool
  confidence : ℚ
deriving DecidableEq, Repr

/-- Total severity penalty accumulated by `ComputeScore`'s loop
(part_002 lines 117-120). -/
def penaltyOf (findings : List Finding) : ℤ :=
  findings.foldl (fun acc f => acc + SeverityWeight f.severity) 0

/-- Embeds `rules.ComputeScore` (part_002 lines 116-127).
`int(math.Round(100.0 * k / (float64(penalty) + k)))` with `k = 100`,
modelled exactly over `ℚ`; `round` is round-half-up, which agrees with
Go's round-half-away-from-zero on the nonnegative values produced here. -/
def ComputeScore (findings : List Finding) : ℤ :=
  let penalty := penaltyOf findings
  if penalty = 0 then 100
  else round ((100 * 100 : ℚ) / ((penalty : ℚ) + 100))

/-- Embeds `extractor.TargetModel` (models.go); fields other than `Expr` are
unused by the functions embedded here. -/
structure TargetModel where
  expr : String
deriving DecidableEq, Repr

/-- Embeds `extractor.PanelModel` (models.go), restricted to the fields the
embedded rules and fixers read; `NestedPanels` holds panels inside
collapsed rows (one level, as in the source). -/
structure PanelModel where
  id : ℤ
  title : String
  type : String
  collapsed : Bool
  repeatVar : String
  maxDataPoints : Option ℤ
  targets : List TargetModel
  nestedPanels : List PanelModel

/-- Embeds `extractor.VariableModel` (models.go), restricted to the fields the
embedded rules read. -/
structure VariableModel where
  name : String
  includeAll : Bool
  multi : Bool
deriving DecidableEq, Repr

/-- Embeds `extractor.TimeRange` (models.go). -/
structure TimeRange where
  fromStr : String
  toStr : String
deriving DecidableEq, Repr

/-- Embeds `extractor.DashboardModel` (models.go); `Templating.List` flattened
to `templatingList` as the wrapper struct has that single field. -/
structure DashboardModel where
  uid : String
  title : String
  refresh : String
  time : TimeRange
  panels : List PanelModel
  templatingList : List VariableModel

/-- Embeds `extractor.AllPanels` (part_014 lines 279-288): every top-level
panel followed by its nested panels. -/
def AllPanels (dash : DashboardModel) : List PanelModel :=
  dash.panels.flatMap (fun p => p :: p.nestedPanels)

/-- Embeds `cardinality.CardinalityData` (types.go); the two maps read by the
embedded code, as association lists. -/
structure CardinalityData where
  seriesByMetric : List (String × ℤ)
  valuesByLabel : List (String × ℤ)
  headSeriesCount : ℤ
deriving DecidableEq, Repr

/-- Go map lookup on an association list. -/
def alistLookup (m : List (String × ℤ)) (k : String) : Option ℤ :=
  match m with
  | [] => none
  | (k', v) :: rest => if k' = k then some v else alistLookup rest k

/-- Embeds `cardinality.DefaultHeuristicSeries` (types.go line 5). -/
def DefaultHeuristicSeries : ℤ := 1000

/-- Embeds `(*CardinalityData).EstimatedSeries` (types.go lines 27-35); the
nil receiver is the `none` case. -/
def EstimatedSeries (c : Option CardinalityData) (metricName : String)
    (defaultCount : ℤ) : ℤ :=
  match c with
  | none => defaultCount
  | some c =>
    match alistLookup c.seriesByMetric metricName with
    | some count => count
    | none => defaultCount

/-- Embeds `(*CardinalityData).LabelCardinality` (types.go lines 39-47). -/
def LabelCardinality (c : Option CardinalityData) (labelName : String)
    (defaultCount : ℤ) : ℤ :=
  match c with
  | none => defaultCount
  | some c =>
    match alistLookup c.valuesByLabel labelName with
    | some count => count
    | none => defaultCount

/-- Embeds `rules.AnalysisContext` (part_002 lines 96-103), restricted to the
fields the embedded rules read (`ParsedExprs` and `PrometheusURL` are
read by no rule settled here). -/
structure AnalysisContext where
  dashboard : DashboardModel
  panels : List PanelModel
  vars : List VariableModel
  cardinality : Option CardinalityData

/-! ## Cost estimator (`analyzer`, part_014 lines 374-494) -/

/-- PromQL AST node shapes distinguished by `walkCost`'s type switch,
with the fields that function reads.  Durations are in seconds (`ℚ`,
the exact value of Go's `time.Duration.Seconds()`). -/
inductive PromExpr where
  | vectorSelector (name : String)
  | matrixSelector (vectorSelector : PromExpr) (rangeSeconds : ℚ)
  | aggregateExpr (grouping : List String) (inner : PromExpr)
  | call (funcName : String) (args : List PromExpr)
  | binaryExpr (lhs rhs : PromExpr)
  | parenExpr (inner : PromExpr)
  | subqueryExpr (inner : PromExpr) (rangeSeconds stepSeconds : ℚ)
  | unaryExpr (inner : PromExpr)
  | stepInvariantExpr (inner : PromExpr)
  | numberLiteral
  | stringLiteral

/-- Embeds `analyzer.functionCosts` table (part_014 lines 376-399). -/
def functionCosts : List (String × ℚ) :=
  [("rate", 1), ("irate", 1), ("increase", 1), ("delta", 1), ("idelta", 1),
   ("histogram_quantile", 2), ("quantile_over_time", 2),
   ("sort", 1/2), ("sort_desc", 1/2),
   ("label_replace", 3/10), ("label_join", 3/10),
   ("avg_over_time", 3/2), ("sum_over_time", 3/2), ("max_over_time", 3/2),
   ("min_over_time", 3/2), ("count_over_time", 3/2), ("stddev_over_time", 3/2),
   ("absent", 1/10), ("absent_over_time", 1/10),
   ("vector", 1/100), ("scalar", 1/100), ("time", 1/100)]

/-- Rational-valued association lookup for the function-cost table. -/
def qlistLookup (m : List (String × ℚ)) (k : String) : Option ℚ :=
  match m with
  | [] => none
  | (k', v) :: rest => if k' = k then some v else qlistLookup rest k

/-- Embeds `analyzer.functionCost` (part_014 lines 489-494). -/
def functionCost (name : String) : ℚ :=
  match qlistLookup functionCosts name with
  | some cost => cost
  | none => 1

mutual

/-- Embeds `analyzer.walkCost` (part_014 lines 421-487), float arithmetic
modelled over `ℚ`.  The Go `node == nil` guard and untyped `default`
arm both return 0 and are covered by the literal cases. -/
def walkCost (node : PromExpr) (card : Option CardinalityData)
    (stepSeconds : ℚ) (depth : ℕ) : ℚ :=
  match node with
  | .vectorSelector name =>
    ((EstimatedSeries card name DefaultHeuristicSeries : ℤ) : ℚ)
  | .matrixSelector vs range =>
    let inner := walkCost vs card stepSeconds depth
    let rangeSeconds := if range ≤ 0 then stepSeconds else range
    inner * (rangeSeconds / stepSeconds)
  | .aggregateExpr grouping inner =>
    let innerCost := walkCost inner card stepSeconds (depth + 1)
    let aggFactor : ℚ := 1 + (2/10) * (depth : ℚ) + (1/10) * (grouping.length : ℚ)
    innerCost * aggFactor
  | .call funcName args =>
    let childCost := walkCostList args card stepSeconds depth
    childCost * functionCost funcName
  | .binaryExpr lhs rhs =>
    walkCost lhs card stepSeconds depth + walkCost rhs card stepSeconds depth
  | .parenExpr inner => walkCost inner card stepSeconds depth
  | .subqueryExpr inner range step =>
    let innerCost := walkCost inner card stepSeconds depth
    let subStep := if step ≤ 0 then stepSeconds else step
    let evaluations := range / subStep
    let evaluations := if evaluations < 1 then 1 else evaluations
    innerCost * evaluations
  | .unaryExpr inner => walkCost inner card stepSeconds depth
  | .stepInvariantExpr inner => walkCost inner card stepSeconds depth
  | .numberLiteral => 0
  | .stringLiteral => 0

/-- The `for _, arg := range n.Args` summation inside `walkCost`'s
`*parser.Call` case. -/
def walkCostList (args : List PromExpr) (card : Option CardinalityData)
    (stepSeconds : ℚ) (depth : ℕ) : ℚ :=
  match args with
  | [] => 0
  | a :: rest =>
    walkCost a card stepSeconds depth + walkCostList rest card stepSeconds depth

end

/-- Embeds `analyzer.EstimateQueryCost` (part_014 lines 411-419); the `nil`
expression guard is modelled by `Option`. -/
def EstimateQueryCost (expr : Option PromExpr) (card : Option CardinalityData)
    (stepSeconds : ℚ) : ℚ :=
  match expr with
  | none => 0
  | some e =>
    let step := if stepSeconds ≤ 0 then 15 else stepSeconds
    walkCost e card step 0

/-! ## Duplicate detection (Q9 `q9_duplicate_expressions.go`,
D8 `d8_duplicate_queries.go`) -/

/-- Embeds `rules.normalizeExpr` (q9_duplicate_expressions.go lines 75-84):
strip all whitespace characters. -/
def normalizeExpr (expr : String) : String :=
  ⟨expr.data.filter (fun r => r ≠ ' ' ∧ r ≠ '\t' ∧ r ≠ '\n' ∧ r ≠ '\r')⟩

/-- Models `strings.TrimSpace` as used by D8 (d8_duplicate_queries.go line 33),
modelled for the ASCII whitespace classes; dashboard expressions use no
exotic Unicode spaces. -/
def isGoSpace (c : Char) : Bool :=
  c = ' ' ∨ c = '\t' ∨ c = '\n' ∨ c = '\r' ∨ c = '\x0b' ∨ c = '\x0c'

/-- Models `strings.TrimSpace` (Go standard library): drop leading and
trailing whitespace. -/
def goTrimSpace (s : String) : String :=
  ⟨((s.data.dropWhile isGoSpace).reverse.dropWhile isGoSpace).reverse⟩

/-- The `panelRef` records both duplicate rules accumulate. -/
structure PanelRef where
  id : ℤ
  title : String
deriving DecidableEq, Repr

/-- One step of `exprPanels[key] = append(exprPanels[key], ref)`:
append `v` to the entry of key `k`, creating the entry at the end on
first insertion (association-list model of the Go map; iteration order
is modelled as first-insertion order, see the file header). -/
def upsertRef (m : List (String × List PanelRef)) (k : String) (v : PanelRef) :
    List (String × List PanelRef) :=
  match m with
  | [] => [(k, [v])]
  | (k', vs) :: rest =>
    if k' = k then (k', vs ++ [v]) :: rest else (k', vs) :: upsertRef rest k v

/-- Build the `exprPanels` map from an already-flattened list of
`(key, panelRef)` insertions. -/
def groupByKey (entries : List (String × PanelRef)) :
    List (String × List PanelRef) :=
  entries.foldl (fun m e => upsertRef m e.1 e.2) []

/-- The insertions performed by `DuplicateExpressions.Check`'s panel /
target loop (q9_duplicate_expressions.go lines 25-37): key is the
SHA-256 of the normalized expression, modelled by the normalized
expression itself (`hashExpr` is collision-free on the inputs of any
one dashboard); empty normalized expressions are skipped. -/
def q9Entries (panels : List PanelModel) : List (String × PanelRef) :=
  panels.flatMap (fun p =>
    p.targets.filterMap (fun t =>
      let normalized := normalizeExpr t.expr
      if normalized = "" then none else some (normalized, ⟨p.id, p.title⟩)))

/-- The first-occurrence panel-ID deduplication inside
`DuplicateExpressions.Check` (q9_duplicate_expressions.go lines 45-55). -/
def dedupRefs (seen : List ℤ) : List PanelRef → List PanelRef
  | [] => []
  | r :: rest =>
    if r.id ∈ seen then dedupRefs seen rest
    else r :: dedupRefs (r.id :: seen) rest

/-- Embeds `DuplicateExpressions.Check` (q9_duplicate_expressions.go lines
18-74): group targets by normalized-expression hash, then for each
group spanning more than two references and more than two distinct
panels emit one High finding. -/
def DuplicateExpressionsCheck (ctx : AnalysisContext) : List Finding :=
  (groupByKey (q9Entries ctx.panels)).filterMap (fun g =>
    let panels := g.2
    if panels.length ≤ 2 then none
    else
      let deduped := dedupRefs [] panels
      if deduped.length ≤ 2 then none
      else some
        { ruleID := "Q9", severity := .high,
          panelIDs := deduped.map (·.id),
          panelTitles := deduped.map (·.title),
          autoFixable := false, confidence := 95/100 })

/-- The insertions performed by `DuplicateQueries.Check`'s loop
(d8_duplicate_queries.go lines 27-41): all panels including nested,
row panels skipped, keyed by the trimmed raw expression, empty ones
skipped. -/
def d8Entries (dash : DashboardModel) : List (String × PanelRef) :=
  (AllPanels dash).flatMap (fun p =>
    if p.type = "row" then []
    else
      p.targets.filterMap (fun t =>
        let expr := goTrimSpace t.expr
        if expr = "" then none else some (expr, ⟨p.id, p.title⟩)))

/-- Embeds `DuplicateQueries.Check` (d8_duplicate_queries.go lines 19-71):
group targets by trimmed raw expression and for each group with more
than two references (no panel-ID deduplication) emit one Medium
finding. -/
def DuplicateQueriesCheck (ctx : AnalysisContext) : List Finding :=
  (groupByKey (d8Entries ctx.dashboard)).filterMap (fun g =>
    let panels := g.2
    if panels.length ≤ 2 then none
    else some
      { ruleID := "D8", severity := .medium,
        panelIDs := panels.map (·.id),
        panelTitles := panels.map (·.title),
        autoFixable := false, confidence := 9/10 })

/-! ## D3 variable cross-product explosion (`d3_variable_explosion.go`) -/

/-- Embeds `rules.defaultValuesPerVariable` (d3_variable_explosion.go line 9). -/
def defaultValuesPerVariable : ℤ := 100

/-- The product loop of `VariableExplosion.Check`
(d3_variable_explosion.go lines 45-53): multiply
`defaultValuesPerVariable` per explosive variable, capping at 1 000 000
and stopping as soon as the cap is hit. -/
def explosionProduct : List String → ℤ → ℤ
  | [], product => product
  | _ :: rest, product =>
    let product := product * defaultValuesPerVariable
    if product > 1000000 then 1000000 else explosionProduct rest product

/-- Embeds `VariableExplosion.Check` (d3_variable_explosion.go lines 32-78)
with threshold parameter `threshold0` (`r.Threshold`, 0 meaning the
default 50 via `r.threshold()`). -/
def VariableExplosionCheck (threshold0 : ℤ) (ctx : AnalysisContext) :
    List Finding :=
  let explosiveVars :=
    (ctx.vars.filter (fun v => v.includeAll ∧ v.multi)).map (·.name)
  if explosiveVars = [] then []
  else
    let product := explosionProduct explosiveVars 1
    let thresh := if threshold0 > 0 then threshold0 else 50
    if product ≤ thresh then []
    else
      [{ ruleID := "D3", severity := .critical, panelIDs := [],
         panelTitles := [], autoFixable := false, confidence := 7/10 }]

/-! ## D5 refresh-too-frequent (part_005 lines 131-220) -/

/-- Split a leading run of decimal digits, returning the digit count,
the accumulated value, and the remaining characters — the manual loop
of `parseGrafanaDuration` (part_005 lines 195-199). -/
def splitDigits : List Char → ℕ × ℕ × List Char
  | [] => (0, 0, [])
  | c :: rest =>
    if '0' ≤ c ∧ c ≤ '9' then
      let n := c.toNat - '0'.toNat
      let (cnt, m, r) := splitDigits rest
      -- left-to-right accumulation n = n*10 + digit
      (cnt + 1, n * 10 ^ cnt + m, r)
    else (0, 0, c :: rest)

/-- Nanoseconds per unit accepted by the Go standard library
`time.ParseDuration` unit table. -/
def goUnitNS (u : List Char) : Option ℤ :=
  if u = "ns".data then some 1
  else if u = "us".data then some 1000
  else if u = "µs".data then some 1000
  else if u = "ms".data then some 1000000
  else if u = "s".data then some 1000000000
  else if u = "m".data then some 60000000000
  else if u = "h".data then some 3600000000000
  else none

/-- Component loop of the Go standard library `time.ParseDuration`,
restricted to integer components (fractional values never occur in the
claims settled here): repeatedly read digits then a unit.  `fuel`
bounds the recursion and is supplied as the input length; each
iteration consumes at least one character, so the bound is never hit. -/
def goDurationComps (fuel : ℕ) (cs : List Char) : Option ℤ :=
  match fuel with
  | 0 => none
  | fuel + 1 =>
    match cs with
    | [] => some 0
    | _ =>
      let (cnt, n, rest) := splitDigits cs
      if cnt = 0 then none
      else
        let u := rest.takeWhile (fun c => ¬('0' ≤ c ∧ c ≤ '9'))
        if u = [] then none
        else
          match goUnitNS u with
          | none => none
          | some mult =>
            match goDurationComps fuel (rest.drop u.length) with
            | none => none
            | some tail => some ((n : ℤ) * mult + tail)

/-- The Go standard library `time.ParseDuration` (nanoseconds),
restricted to integer components: optional sign, the special case
`"0"`, then one or more number-unit components. -/
def goParseDuration (s : String) : Option ℤ :=
  let (neg, cs) :=
    match s.data with
    | '-' :: rest => (true, rest)
    | '+' :: rest => (false, rest)
    | cs => (false, cs)
  if cs = ['0'] then some 0
  else if cs = [] then none
  else
    match goDurationComps (cs.length + 1) cs with
    | none => none
    | some d => some (if neg then -d else d)

/-- Embeds `rules.parseGrafanaDuration` (part_005 lines 183-220): try
`time.ParseDuration` first, then parse Grafana-specific suffixes
(`s`, `m`, `h`, `d`, `w`, `ms`) manually.  Result in nanoseconds. -/
def parseGrafanaDuration (s : String) : Option ℤ :=
  if s = "" then none
  else
    match goParseDuration s with
    | some d => some d
    | none =>
      let (cnt, n, rest) := splitDigits s.data
      if cnt = 0 ∨ rest = [] then none
      else
        let suffix : String := ⟨rest⟩
        if suffix = "s" then some ((n : ℤ) * 1000000000)
        else if suffix = "m" then some ((n : ℤ) * 60000000000)
        else if suffix = "h" then some ((n : ℤ) * 3600000000000)
        else if suffix = "d" then some ((n : ℤ) * 24 * 3600000000000)
        else if suffix = "w" then some ((n : ℤ) * 7 * 24 * 3600000000000)
        else if suffix = "ms" then some ((n : ℤ) * 1000000)
        else none

/-- Embeds `RefreshTooFrequent.Check` (part_005 lines 150-179) with the
`MinRefresh` configuration field (`minRefresh0`, nanoseconds; 0 means
the 30-second default via `r.minRefresh()`). -/
def RefreshTooFrequentCheck (minRefresh0 : ℤ) (ctx : AnalysisContext) :
    List Finding :=
  let raw := ctx.dashboard.refresh
  if raw = "" then []
  else
    match parseGrafanaDuration raw with
    | none => []
    | some d =>
      let minD := if minRefresh0 > 0 then minRefresh0 else 30 * 1000000000
      if d ≥ minD then []
      else
        [{ ruleID := "D5", severity := .medium, panelIDs := [],
           panelTitles := [], autoFixable := true, confidence := 1 }]

/-! ## Auto-fixer (`fixer`, part_001 lines 174-387) -/

/-- Generic JSON value as produced by Go's `encoding/json` unmarshal
into `interface\x7b\x7d`; objects are association lists (Go maps;
lookups here never depend on iteration order). -/
inductive JValue where
  | null
  | jbool (b : Bool)
  | num (q : ℚ)
  | str (s : String)
  | arr (elems : List JValue)
  | obj (fields : List (String × JValue))

/-- Go map read `m[k]` on a JSON object. -/
def jlookup (fields : List (String × JValue)) (k : String) : Option JValue :=
  match fields with
  | [] => none
  | (k', v) :: rest => if k' = k then some v else jlookup rest k

/-- Go map write `m[k] = v` on a JSON object: replace the entry if
present, else add it. -/
def jset (fields : List (String × JValue)) (k : String) (v : JValue) :
    List (String × JValue) :=
  match fields with
  | [] => [(k, v)]
  | (k', v') :: rest =>
    if k' = k then (k', v) :: rest else (k', v') :: jset rest k v

/-- Embeds `fixer.fixD5` (part_001 lines 331-334): set the raw document's
`refresh` field to `"1m"`. -/
def fixD5 (dash : List (String × JValue)) : List (String × JValue) :=
  jset dash "refresh" (.str "1m")

/-- The `vizTypes` set of `fixer.fixD7` (part_001 lines 354-356). -/
def d7VizTypes : List String := ["timeseries", "graph", "barchart", "heatmap"]

/-- The `panel["type"].(string)` read with Go's zero-value `""` on a
failed assertion. -/
def jPanelType (fields : List (String × JValue)) : String :=
  match jlookup fields "type" with
  | some (.str t) => t
  | _ => ""

/-- Top-level panel treatment of `fixer.fixD7` (part_001 lines
363-370): on affected visual types set `maxDataPoints` to 1000 when
the field is absent, or present as the number 0. -/
def fixD7TopPanel (fields : List (String × JValue)) :
    List (String × JValue) :=
  if jPanelType fields ∈ d7VizTypes then
    match jlookup fields "maxDataPoints" with
    | none => jset fields "maxDataPoints" (.num 1000)
    | some (.num mdp) =>
      if mdp = 0 then jset fields "maxDataPoints" (.num 1000) else fields
    | some _ => fields
  else fields

/-- Nested panel treatment of `fixer.fixD7` (part_001 lines 372-383):
on affected visual types set `maxDataPoints` to 1000 only when the
field is absent (the zero-valued branch is not applied to nested
panels in the source). -/
def fixD7NestedPanel (p : JValue) : JValue :=
  match p with
  | .obj fields =>
    if jPanelType fields ∈ d7VizTypes then
      match jlookup fields "maxDataPoints" with
      | none => .obj (jset fields "maxDataPoints" (.num 1000))
      | some _ => .obj fields
    else .obj fields
  | other => other

/-- Per-panel body of `fixer.fixD7`'s loop (part_001 lines 358-384). -/
def fixD7Panel (p : JValue) : JValue :=
  match p with
  | .obj fields =>
    let fields := fixD7TopPanel fields
    match jlookup fields "panels" with
    | some (.arr nested) =>
      .obj (jset fields "panels" (.arr (nested.map fixD7NestedPanel)))
    | _ => .obj fields
  | other => other

/-- Embeds `fixer.fixD7` (part_001 lines 348-386). -/
def fixD7 (dash : List (String × JValue)) : List (String × JValue) :=
  match jlookup dash "panels" with
  | some (.arr panels) => jset dash "panels" (.arr (panels.map fixD7Panel))
  | _ => dash

/-! ## Per-panel scores (`analyzer.computePanelScores`,
engine.go lines 157-171) -/

/-- One step of `panelFindings[pid] = append(panelFindings[pid], f)`. -/
def upsertPanelFinding (m : List (ℤ × List Finding)) (pid : ℤ) (f : Finding) :
    List (ℤ × List Finding) :=
  match m with
  | [] => [(pid, [f])]
  | (k, fs) :: rest =>
    if k = pid then (k, fs ++ [f]) :: rest
    else (k, fs) :: upsertPanelFinding rest pid f

/-- The grouping loop of `computePanelScores` (engine.go lines
159-165): each finding is appended once per entry of its
`PanelIDs` list. -/
def panelFindingsMap (findings : List Finding) : List (ℤ × List Finding) :=
  findings.foldl
    (fun m f => f.panelIDs.foldl (fun m pid => upsertPanelFinding m pid f) m) []

/-- Embeds `analyzer.computePanelScores` (engine.go lines 157-171): score each
panel that has findings. -/
def computePanelScores (findings : List Finding) : List (ℤ × ℤ) :=
  (panelFindingsMap findings).map (fun g => (g.1, ComputeScore g.2))

/-- Lookup in the per-panel score map; `none` models key absence. -/
def scoreLookup (m : List (ℤ × ℤ)) (pid : ℤ) : Option ℤ :=
  match m with
  | [] => none
  | (k, v) :: rest => if k = pid then some v else scoreLookup rest pid

/-! ## Expression preprocessor (`analyzer`, part_015 lines 41-122)

The Go scanner works on bytes of a UTF-8 string.  The model works on
characters: a UTF-8 continuation byte is never `$`, `{`, `}` or an
identifier byte, so the byte-level scanner passes multi-byte characters
through unchanged exactly as the character-level model does. -/

/-- Embeds `analyzer.isIdentStart` (part_015 lines 116-118). -/
def isIdentStart (c : Char) : Bool :=
  ('a' ≤ c ∧ c ≤ 'z') ∨ ('A' ≤ c ∧ c ≤ 'Z') ∨ c = '_'

/-- Embeds `analyzer.isIdentChar` (part_015 lines 120-122). -/
def isIdentChar (c : Char) : Bool :=
  isIdentStart c ∨ ('0' ≤ c ∧ c ≤ '9')

/-- The Go standard library `strings.ReplaceAll` for a non-empty
pattern: leftmost non-overlapping replacement.  (The empty-pattern
case inserts between characters in Go; it is never exercised — all
six duration tokens are non-empty.)  Structural recursion on `fuel`;
every step consumes at least one character, so the `replaceAllL`
wrapper's `fuel = length` never runs out (the fuel-exhausted arm is
unreachable for non-empty `old`). -/
def replaceAllGo (old new_ : List Char) : ℕ → List Char → List Char
  | _, [] => []
  | 0, s => s
  | fuel + 1, c :: rest =>
    if old ≠ [] ∧ old.isPrefixOf (c :: rest) then
      new_ ++ replaceAllGo old new_ fuel ((c :: rest).drop old.length)
    else c :: replaceAllGo old new_ fuel rest

/-- Applies `strings.ReplaceAll old → new_` on `s`. -/
def replaceAllL (old new_ s : List Char) : List Char :=
  replaceAllGo old new_ s.length s

/-- Characters dropped by the `i += end + 1` jump over a closed
`${...}` reference: everything up to and including the first `}`. -/
def dropThroughBrace : List Char → List Char
  | [] => []
  | c :: rest => if c = '}' then rest else dropThroughBrace rest

/-- Embeds `analyzer.replaceVariableRefs` (part_015 lines 72-114): scan for
`$`; replace `$ident` and closed `${...}` references with
`placeholder`; pass through a trailing `$`, a `$` followed by neither
an identifier-start character nor `{`, and a `${` with no later `}`.
Structural recursion on `fuel`; every iteration of the Go loop
consumes at least one character, so the `replaceRefs` wrapper's
`fuel = length` never runs out and the fuel-exhausted arm is
unreachable.  The scanner is total: it terminates on every input. -/
def replaceRefsGo : ℕ → List Char → List Char
  | _, [] => []
  | 0, s => s
  | fuel + 1, c :: rest =>
    if c = '$' then
      match rest with
      | [] => ['$']
      | c2 :: rest2 =>
        if c2 = '{' then
          if '}' ∈ rest2 then
            "placeholder".data ++ replaceRefsGo fuel (dropThroughBrace rest2)
          else '$' :: replaceRefsGo fuel (c2 :: rest2)
        else if isIdentStart c2 then
          "placeholder".data ++
            replaceRefsGo fuel ((c2 :: rest2).dropWhile isIdentChar)
        else '$' :: replaceRefsGo fuel (c2 :: rest2)
    else c :: replaceRefsGo fuel rest

/-- Embeds `analyzer.replaceVariableRefs` on a character list. -/
def replaceRefs (s : List Char) : List Char :=
  replaceRefsGo s.length s

/-- Embeds `analyzer.grafanaDurationVars` (part_015 lines 46-53). -/
def grafanaDurationVars : List String :=
  ["$__rate_interval", "$__interval", "$__range",
   "${__rate_interval}", "${__interval}", "${__range}"]

/-- Embeds `analyzer.ReplaceTemplateVars` (part_015 lines 55-68): replace the
six Grafana duration tokens with `"5m"`, then replace remaining `$var`
and `${var}` references with `placeholder`. -/
def ReplaceTemplateVars (expr : String) : String :=
  let result :=
    grafanaDurationVars.foldl
      (fun r v => (⟨replaceAllL v.data "5m".data r.data⟩ : String)) expr
  ⟨replaceRefs result.data⟩

/-! ## Concrete fixtures and auxiliary predicates used by the theorems -/

/-- A context whose dashboard refreshes every 10 seconds. -/
def sampleCtx10s : AnalysisContext :=
  { dashboard := { uid := "d", title := "d", refresh := "10s",
                   time := ⟨"now-6h", "now"⟩, panels := [],
                   templatingList := [] },
    panels := [], vars := [], cardinality := none }

/-- The same dashboard after the D5 fix. -/
def sampleCtx1m : AnalysisContext :=
  { dashboard := { uid := "d", title := "d", refresh := "1m",
                   time := ⟨"now-6h", "now"⟩, panels := [],
                   templatingList := [] },
    panels := [], vars := [], cardinality := none }

/-- Refinement side of C5, following the claim's words: a multi-select,
select-all variable's value count is the measured count when
cardinality data is available, else the fixed heuristic default (100). -/
def specVariableEstimate (card : Option CardinalityData)
    (v : VariableModel) : ℤ :=
  LabelCardinality card v.name defaultValuesPerVariable

/-- Refinement side of C5: multiply the per-variable estimates with the
same overflow cap the code uses. -/
def specExplosionLoop : List ℤ → ℤ → ℤ
  | [], product => product
  | c :: rest, product =>
    let product := product * c
    if product > 1000000 then 1000000 else specExplosionLoop rest product

/-- Refinement side of C5: the claimed cross-product estimate. -/
def specExplosionProduct (ctx : AnalysisContext) : ℤ :=
  specExplosionLoop
    ((ctx.vars.filter (fun v => v.includeAll ∧ v.multi)).map
      (specVariableEstimate ctx.cardinality)) 1

/-- A context with one multi+all variable whose measured label
cardinality (30) is below the threshold. -/
def sampleCtxD3 : AnalysisContext :=
  { dashboard := { uid := "d", title := "d", refresh := "",
                   time := ⟨"now-6h", "now"⟩, panels := [],
                   templatingList := [] },
    panels := [],
    vars := [{ name := "pod", includeAll := true, multi := true }],
    cardinality := some { seriesByMetric := [],
                          valuesByLabel := [("pod", 30)],
                          headSeriesCount := 0 } }

/-- Raw document: one collapsed row containing one nested timeseries
panel whose `maxDataPoints` is present but zero. -/
def d7NestedZeroDoc : List (String × JValue) :=
  [("panels", .arr [.obj
    [("type", .str "row"),
     ("panels", .arr [.obj
       [("type", .str "timeseries"), ("maxDataPoints", .num 0)]])]])]

/-- Raw document: one top-level timeseries panel whose `maxDataPoints`
is present but zero. -/
def d7TopZeroDoc : List (String × JValue) :=
  [("panels", .arr [.obj
    [("type", .str "timeseries"), ("maxDataPoints", .num 0)]])]

/-- The findings associated with `pid` by `computePanelScores`'s
grouping loop: each finding once per occurrence of `pid` in its
`PanelIDs` list, in input order. -/
def occList (findings : List Finding) (pid : ℤ) : List Finding :=
  findings.flatMap (fun f => List.replicate (f.panelIDs.count pid) f)

/-- Association-list read with `[]` default (Go `panelFindings[pid]`). -/
def pfGet (m : List (ℤ × List Finding)) (q : ℤ) : List Finding :=
  match m with
  | [] => []
  | (k, fs) :: rest => if k = q then fs else pfGet rest q

/-- Association-list read distinguishing key absence. -/
def pfFind (m : List (ℤ × List Finding)) (q : ℤ) : Option (List Finding) :=
  match m with
  | [] => none
  | (k, fs) :: rest => if k = q then some fs else pfFind rest q

/-- A finding that lists panel 1 twice in its affected-panel list, as
`DuplicateQueries.Check` can produce for a panel using the same
expression in two targets. -/
def c10Finding : Finding :=
  { ruleID := "Q9", severity := .critical, panelIDs := [1, 1],
    panelTitles := ["a", "a"], autoFixable := false, confidence := 1 }

/-- Association-list read with `[]` default (Go `exprPanels[key]`). -/
def refGet (m : List (String × List PanelRef)) (k : String) : List PanelRef :=
  match m with
  | [] => []
  | (k', vs) :: rest => if k' = k then vs else refGet rest k

/-- The number of distinct panel IDs that use normalized expression `e`
(the claim's "distinct panels sharing an expression" for Q9). -/
def distinctPanelsSharing (panels : List PanelModel) (e : String) : ℕ :=
  (dedupRefs [] (((q9Entries panels).filter (fun en => en.1 = e)).map (·.2))).length

/-- The number of target occurrences of trimmed expression `e` across
non-row panels (what D8 actually counts). -/
def d8Occurrences (dash : DashboardModel) (e : String) : ℕ :=
  ((d8Entries dash).filter (fun en => en.1 = e)).length

/-- The number of distinct panel IDs that use trimmed expression `e`
(the claim's "distinct panels sharing an expression" for D8). -/
def d8DistinctPanelsSharing (dash : DashboardModel) (e : String) : ℕ :=
  (dedupRefs [] (((d8Entries dash).filter (fun en => en.1 = e)).map (·.2))).length

/-- A panel using the same expression in two of its targets. -/
def dupPanel1 : PanelModel :=
  { id := 1, title := "p1", type := "timeseries", collapsed := false,
    repeatVar := "", maxDataPoints := none,
    targets := [⟨"up"⟩, ⟨"up"⟩], nestedPanels := [] }

/-- A second, distinct panel using that expression once. -/
def dupPanel2 : PanelModel :=
  { id := 2, title := "p2", type := "timeseries", collapsed := false,
    repeatVar := "", maxDataPoints := none,
    targets := [⟨"up"⟩], nestedPanels := [] }

/-- A dashboard in which `"up"` is shared by exactly two distinct
panels (one of them using it in two targets). -/
def dupDash : DashboardModel :=
  { uid := "dup", title := "dup", refresh := "",
    time := ⟨"now-6h", "now"⟩, panels := [dupPanel1, dupPanel2],
    templatingList := [] }

/-- The analysis context for `dupDash`. -/
def dupCtx : AnalysisContext :=
  { dashboard := dupDash, panels := [dupPanel1, dupPanel2],
    vars := [], cardinality := none }

/-- Strings with no two adjacent `$` characters.  Substitution can
juxtapose a passed-through `$` with a replacement that starts with an
identifier character, which is what breaks idempotence; `$$`-free
inputs exclude exactly that. -/
def ddFree (s : List Char) : Prop :=
  List.Chain' (fun a b => ¬(a = '$' ∧ b = '$')) s

instance ddFreeDecidable : ∀ s : List Char, Decidable (ddFree s)
  | [] => isTrue List.chain'_nil
  | [a] => isTrue (List.chain'_singleton a)
  | a :: b :: rest =>
    match ddFreeDecidable (b :: rest) with
    | isTrue h =>
      if hab : a = '$' ∧ b = '$' then
        isFalse (fun hc => (List.chain'_cons.mp hc).1 hab)
      else isTrue (List.chain'_cons.mpr ⟨hab, h⟩)
    | isFalse h => isFalse (fun hc => h (List.chain'_cons.mp hc).2)

/-- Fixpoint predicate of the reference scanner: every `$` in `s` is
trailing, followed by neither an identifier-start character nor `{`,
or starts a `${` with no later `}` — precisely the strings
`replaceVariableRefs` leaves unchanged. -/
def noRefB : List Char → Bool
  | [] => true
  | c :: rest =>
    if c = '$' then
      match rest with
      | [] => true
      | c2 :: rest2 =>
        if c2 = '{' then decide ('}' ∉ rest2) && noRefB rest2
        else if isIdentStart c2 then false
        else noRefB (c2 :: rest2)
    else noRefB rest

/-- The duration-token pass of `ReplaceTemplateVars` (part_015 lines
59-61) at the character-list level. -/
def durationsPass (s : List Char) : List Char :=
  grafanaDurationVars.foldl (fun r v => replaceAllL v.data "5m".data r) s

/-! ## Scorer lemmas -/

theorem penaltyOf_shift (fs : List Finding) : ∀ a : ℤ,
    fs.foldl (fun acc f => acc + SeverityWeight f.severity) a = a + penaltyOf fs := by
  induction fs with
  | nil =>
    intro a
    simp only [List.foldl_nil, penaltyOf]
    omega
  | cons f fs ih =>
    intro a
    simp only [List.foldl_cons, penaltyOf]
    rw [ih (a + SeverityWeight f.severity), ih (0 + SeverityWeight f.severity)]
    omega

theorem penaltyOf_cons (f : Finding) (fs : List Finding) :
    penaltyOf (f :: fs) = SeverityWeight f.severity + penaltyOf fs := by
  have h2 : penaltyOf (f :: fs) = (0 + SeverityWeight f.severity) + penaltyOf fs :=
    penaltyOf_shift fs (0 + SeverityWeight f.severity)
  omega

theorem penaltyOf_append (fs gs : List Finding) :
    penaltyOf (fs ++ gs) = penaltyOf fs + penaltyOf gs := by
  simp only [penaltyOf, List.foldl_append]
  rw [penaltyOf_shift gs]
  rfl

theorem severityWeight_pos (s : Severity) : 0 < SeverityWeight s := by
  cases s <;> decide

theorem severityWeight_ge_two (s : Severity) : 2 ≤ SeverityWeight s := by
  cases s <;> decide

theorem penaltyOf_nonneg (fs : List Finding) : 0 ≤ penaltyOf fs := by
  induction fs with
  | nil => simp [penaltyOf]
  | cons f fs ih =>
    rw [penaltyOf_cons]
    have := severityWeight_pos f.severity
    omega

theorem penaltyOf_replicate (n : ℕ) (f : Finding) :
    penaltyOf (List.replicate n f) = n * SeverityWeight f.severity := by
  induction n with
  | zero => simp [penaltyOf]
  | succ n ih =>
    rw [List.replicate_succ, penaltyOf_cons, ih]
    push_cast
    ring

theorem round_mono_rat {x y : ℚ} (h : x ≤ y) : round x ≤ round y := by
  rw [round_eq, round_eq]
  exact Int.floor_le_floor (by linarith)

theorem computeScore_le_100 (fs : List Finding) : ComputeScore fs ≤ 100 := by
  unfold ComputeScore
  by_cases hp : penaltyOf fs = 0
  · simp [hp]
  · have hnn := penaltyOf_nonneg fs
    simp only [hp, if_false]
    have hq : (0 : ℚ) ≤ (penaltyOf fs : ℚ) := by exact_mod_cast hnn
    have hx : ((100 * 100 : ℚ)) / ((penaltyOf fs : ℚ) + 100) ≤ 100 := by
      rw [div_le_iff (by linarith)]
      linarith
    calc round ((100 * 100 : ℚ) / ((penaltyOf fs : ℚ) + 100))
        ≤ round (100 : ℚ) := round_mono_rat hx
      _ = 100 := by simp

/-- C1 (code bug): contrary to the claim that `ComputeScore` stays
strictly positive on every finding list, a list of 1327 Critical
findings (penalty 19905) makes `round(100·100 / (penalty + 100))`
evaluate to 0 — the code contradicts its own documentation
("Score approaches 0 but never reaches it"). -/
theorem computeScore_zero_on_many_criticals :
    ComputeScore (List.replicate 1327
      { ruleID := "Q1", severity := .critical, panelIDs := [],
        panelTitles := [], autoFixable := false, confidence := 1 }) = 0 := by
  unfold ComputeScore
  rw [penaltyOf_replicate]
  have h15 : SeverityWeight Severity.critical = 15 := rfl
  rw [h15]
  norm_num [round_eq]

/-- C8: the score is monotonically non-increasing as findings are
added: appending any finding to any list never raises `ComputeScore`. -/
theorem computeScore_antitone_append (fs : List Finding) (f : Finding) :
    ComputeScore (fs ++ [f]) ≤ ComputeScore fs := by
  by_cases hp : penaltyOf fs = 0
  · have : ComputeScore fs = 100 := by simp [ComputeScore, hp]
    rw [this]
    exact computeScore_le_100 _
  · have hnn := penaltyOf_nonneg fs
    have hw := severityWeight_pos f.severity
    have happ : penaltyOf (fs ++ [f]) = penaltyOf fs + SeverityWeight f.severity := by
      rw [penaltyOf_append, penaltyOf_cons]
      simp [penaltyOf]
    have hp' : penaltyOf (fs ++ [f]) ≠ 0 := by omega
    unfold ComputeScore
    simp only [hp, hp', if_false]
    apply round_mono_rat
    rw [happ]
    have hq : (0 : ℚ) ≤ (penaltyOf fs : ℚ) := by exact_mod_cast hnn
    have hwq : (0 : ℚ) < (SeverityWeight f.severity : ℚ) := by exact_mod_cast hw
    have h1 : (0 : ℚ) < (penaltyOf fs : ℚ) + 100 := by linarith
    have h2 : (0 : ℚ) < ((penaltyOf fs + SeverityWeight f.severity : ℤ) : ℚ) + 100 := by
      push_cast
      linarith
    rw [div_le_div_iff h2 h1]
    push_cast
    nlinarith

/-! ## Cost-estimator theorems -/

/-- C4: for a metric with no cardinality entry (or no cardinality data
at all) the bare selector costs the heuristic default 1000; a
range-selector over it costs the selector cost times
`range_seconds / step_seconds` (so a 20×-step range costs 20000), with
the range falling back to the step when non-positive. -/
theorem walkCost_unknown_metric (card : Option CardinalityData)
    (name : String) (step r : ℚ) (depth : ℕ)
    (hcard : ∀ c, card = some c → alistLookup c.seriesByMetric name = none)
    (hstep : 0 < step) :
    walkCost (.vectorSelector name) card step depth = 1000 ∧
    (0 < r →
      walkCost (.matrixSelector (.vectorSelector name) r) card step depth
        = 1000 * (r / step)) ∧
    (r ≤ 0 →
      walkCost (.matrixSelector (.vectorSelector name) r) card step depth
        = 1000) ∧
    walkCost (.matrixSelector (.vectorSelector name) (20 * step)) card step depth
      = 20000 := by
  have hsel : walkCost (.vectorSelector name) card step depth = 1000 := by
    cases card with
    | none => simp [walkCost, EstimatedSeries, DefaultHeuristicSeries]
    | some c =>
      have := hcard c rfl
      simp [walkCost, EstimatedSeries, this, DefaultHeuristicSeries]
  refine ⟨hsel, ?_, ?_, ?_⟩
  · intro hr
    rw [walkCost, hsel]
    simp [not_le.mpr hr]
  · intro hr
    rw [walkCost, hsel]
    rw [if_pos hr]
    field_simp
  · rw [walkCost, hsel]
    have h20 : ¬((20 : ℚ) * step ≤ 0) := by nlinarith
    rw [if_neg h20]
    field_simp
    ring

/-- Witness for `walkCost_unknown_metric` at concrete inputs. -/
theorem walkCost_unknown_metric_witness :
    (∀ c, (none : Option CardinalityData) = some c →
        alistLookup c.seriesByMetric "up" = none) ∧ (0 : ℚ) < 15 ∧
    walkCost (.matrixSelector (.vectorSelector "up") (20 * 15))
        none 15 0 = 20000 := by
  refine ⟨?_, ?_, ?_⟩
  · intro c hc
    cases hc
  · norm_num
  · exact (walkCost_unknown_metric none "up" 15 5 0
      (fun c hc => by cases hc) (by norm_num)).2.2.2

/-! ## D5 refresh scenario (C7) -/

theorem jlookup_jset_self (m : List (String × JValue)) (k : String) (v : JValue) :
    jlookup (jset m k v) k = some v := by
  induction m with
  | nil => simp [jset, jlookup]
  | cons e rest ih =>
    obtain ⟨k', v'⟩ := e
    by_cases h : k' = k <;> simp [jset, jlookup, h, ih]

/-- C7: a document whose refresh interval is `"10s"` yields exactly one
D5 finding, marked auto-fixable; the D5 auto-fix sets the raw
document's `refresh` field to `"1m"`; and a document whose refresh
interval is `"1m"` yields no D5 finding. -/
theorem refreshTooFrequent_fix_scenario (ctx ctx' : AnalysisContext)
    (raw : List (String × JValue))
    (h10 : ctx.dashboard.refresh = "10s")
    (h1m : ctx'.dashboard.refresh = "1m") :
    RefreshTooFrequentCheck 0 ctx =
      [{ ruleID := "D5", severity := .medium, panelIDs := [],
         panelTitles := [], autoFixable := true, confidence := 1 }] ∧
    jlookup (fixD5 raw) "refresh" = some (.str "1m") ∧
    RefreshTooFrequentCheck 0 ctx' = [] := by
  refine ⟨?_, jlookup_jset_self raw "refresh" (.str "1m"), ?_⟩
  · simp only [RefreshTooFrequentCheck, h10]
    decide
  · simp only [RefreshTooFrequentCheck, h1m]
    decide

/-- Witness for `refreshTooFrequent_fix_scenario` at concrete inputs. -/
theorem refreshTooFrequent_fix_scenario_witness :
    RefreshTooFrequentCheck 0 sampleCtx10s =
      [{ ruleID := "D5", severity := .medium, panelIDs := [],
         panelTitles := [], autoFixable := true, confidence := 1 }] ∧
    jlookup (fixD5 [("refresh", .str "10s")]) "refresh" = some (.str "1m") ∧
    RefreshTooFrequentCheck 0 sampleCtx1m = [] :=
  refreshTooFrequent_fix_scenario sampleCtx10s sampleCtx1m
    [("refresh", .str "10s")] rfl rfl

/-! ## D3 variable explosion (C5) -/

/-- C5 counterexample: with cardinality data measuring 30 values for
the only explosive variable, the claimed estimate (30 ≤ 50) predicts
no finding, but the rule — which never consults cardinality data and
always charges the fixed default 100 per variable — does emit one. -/
theorem variableExplosion_claim_false :
    ¬ (VariableExplosionCheck 0 sampleCtxD3 ≠ [] ↔
        specExplosionProduct sampleCtxD3 > 50) := by
  decide

/-- C5 (amended): the rule charges every multi+all variable the fixed
default 100 — cardinality data is never consulted — multiplies with a
1 000 000 cap, and emits exactly one Critical `D3` finding when the
product exceeds the threshold (50 when the configured threshold is not
positive). -/
theorem variableExplosionCheck_fires_iff (t : ℤ) (ctx : AnalysisContext) :
    (VariableExplosionCheck t ctx ≠ [] ↔
      ((ctx.vars.filter (fun v => v.includeAll ∧ v.multi)).map (·.name) ≠ [] ∧
        explosionProduct
          ((ctx.vars.filter (fun v => v.includeAll ∧ v.multi)).map (·.name)) 1 >
          (if t > 0 then t else 50))) ∧
    ∀ f ∈ VariableExplosionCheck t ctx,
      f.severity = .critical ∧ f.ruleID = "D3" ∧ f.confidence = 7/10 := by
  unfold VariableExplosionCheck
  set evars := (ctx.vars.filter (fun v => v.includeAll ∧ v.multi)).map (·.name)
      with hev
  by_cases hvars : evars = []
  · rw [if_pos hvars]
    simp [hvars]
  · rw [if_neg hvars]
    by_cases hprod :
        explosionProduct evars 1 ≤ (if t > 0 then t else 50)
    · rw [if_pos hprod]
      refine ⟨?_, by simp⟩
      simp only [ne_eq, not_true_eq_false, false_iff, not_and]
      intro _
      omega
    · rw [if_neg hprod]
      refine ⟨?_, ?_⟩
      · simp only [ne_eq, List.cons_ne_nil, not_false_eq_true, true_iff]
        exact ⟨hvars, by omega⟩
      · intro f hf
        simp only [List.mem_singleton] at hf
        subst hf
        exact ⟨rfl, rfl, rfl⟩

/-! ## D7 auto-fix (C6) -/

/-- C6 (code bug): the D7 auto-fix is claimed to set `maxDataPoints`
to 1000 on every affected panel whose field is absent *or zero*,
nested panels included; the code only applies the zero-value branch to
top-level panels, so a nested timeseries panel with `maxDataPoints: 0`
is left untouched while the identical top-level panel is patched. -/
theorem fixD7_nested_zero_untouched :
    fixD7 d7NestedZeroDoc = d7NestedZeroDoc ∧
    fixD7 d7TopZeroDoc =
      [("panels", .arr [.obj
        [("type", .str "timeseries"), ("maxDataPoints", .num 1000)]])] := by
  exact ⟨rfl, rfl⟩

/-! ## Per-panel score characterization (C10) -/

theorem pfGet_upsert (m : List (ℤ × List Finding)) (k q : ℤ) (f : Finding) :
    pfGet (upsertPanelFinding m k f) q =
      if k = q then pfGet m q ++ [f] else pfGet m q := by
  induction m with
  | nil =>
    by_cases h : k = q <;> simp [upsertPanelFinding, pfGet, h]
  | cons e rest ih =>
    obtain ⟨k', fs'⟩ := e
    by_cases h1 : k' = k
    · subst h1
      by_cases h2 : k' = q <;> simp [upsertPanelFinding, pfGet, h2]
    · by_cases h2 : k' = q
      · subst h2
        have hkq : ¬ k = k' := fun hq => h1 hq.symm
        simp [upsertPanelFinding, pfGet, h1, hkq]
      · simp [upsertPanelFinding, pfGet, h1, h2, ih]

theorem pfGet_foldl_ids (ids : List ℤ) (f : Finding) :
    ∀ (m : List (ℤ × List Finding)) (q : ℤ),
      pfGet (ids.foldl (fun m pid => upsertPanelFinding m pid f) m) q =
        pfGet m q ++ List.replicate (ids.count q) f := by
  induction ids with
  | nil => intro m q; simp
  | cons i ids ih =>
    intro m q
    simp only [List.foldl_cons]
    rw [ih (upsertPanelFinding m i f) q, pfGet_upsert]
    by_cases h : i = q
    · subst h
      rw [if_pos rfl, List.count_cons_self, List.append_assoc]
      congr 1
    · rw [if_neg h]
      have h' : ¬ q = i := fun hq => h hq.symm
      simp [List.count_cons, h']

theorem pfGet_panelFindings (findings : List Finding) :
    ∀ (m : List (ℤ × List Finding)) (q : ℤ),
      pfGet (findings.foldl
        (fun m f => f.panelIDs.foldl (fun m pid => upsertPanelFinding m pid f) m)
        m) q = pfGet m q ++ occList findings q := by
  induction findings with
  | nil => intro m q; simp [occList]
  | cons f fs ih =>
    intro m q
    simp only [List.foldl_cons]
    rw [ih, pfGet_foldl_ids]
    have hocc : occList (f :: fs) q =
        List.replicate (f.panelIDs.count q) f ++ occList fs q := by
      simp [occList]
    rw [hocc, List.append_assoc]

theorem pfGet_panelFindingsMap (findings : List Finding) (q : ℤ) :
    pfGet (panelFindingsMap findings) q = occList findings q := by
  have h := pfGet_panelFindings findings [] q
  simpa [pfGet, panelFindingsMap] using h

theorem pfFind_eq_pfGet (m : List (ℤ × List Finding)) (q : ℤ)
    (fs : List Finding) (h : pfFind m q = some fs) : pfGet m q = fs := by
  induction m with
  | nil => simp [pfFind] at h
  | cons e rest ih =>
    obtain ⟨k, v⟩ := e
    by_cases hk : k = q
    · simp [pfFind, hk] at h
      simp [pfGet, hk, h]
    · simp [pfFind, hk] at h
      simp [pfGet, hk, ih h]

theorem pfFind_mem (m : List (ℤ × List Finding)) (q : ℤ)
    (fs : List Finding) (h : pfFind m q = some fs) : ∃ g ∈ m, g.2 = fs := by
  induction m with
  | nil => simp [pfFind] at h
  | cons e rest ih =>
    obtain ⟨k, v⟩ := e
    by_cases hk : k = q
    · simp [pfFind, hk] at h
      exact ⟨(k, v), by simp, h⟩
    · simp [pfFind, hk] at h
      obtain ⟨g, hg, hv⟩ := ih h
      exact ⟨g, by simp [hg], hv⟩

theorem pfFind_of_pfGet_ne (m : List (ℤ × List Finding)) (q : ℤ)
    (h : pfGet m q ≠ []) : pfFind m q = some (pfGet m q) := by
  induction m with
  | nil => simp [pfGet] at h
  | cons e rest ih =>
    obtain ⟨k, v⟩ := e
    by_cases hk : k = q
    · simp [pfFind, pfGet, hk]
    · simp only [pfGet, hk, if_false] at h
      simp [pfFind, pfGet, hk, ih h]

theorem upsert_values_ne_nil (m : List (ℤ × List Finding)) (k : ℤ)
    (f : Finding) (hm : ∀ g ∈ m, g.2 ≠ []) :
    ∀ g ∈ upsertPanelFinding m k f, g.2 ≠ [] := by
  induction m with
  | nil =>
    intro g hg
    simp only [upsertPanelFinding, List.mem_singleton] at hg
    simp [hg]
  | cons e rest ih =>
    obtain ⟨k', v'⟩ := e
    intro g hg
    simp only [upsertPanelFinding] at hg
    by_cases hk : k' = k
    · rw [if_pos hk, List.mem_cons] at hg
      rcases hg with hg | hg
      · simp [hg]
      · exact hm g (List.mem_cons_of_mem _ hg)
    · rw [if_neg hk, List.mem_cons] at hg
      rcases hg with hg | hg
      · exact hm g (by simp [hg])
      · exact ih (fun g2 hg2 => hm g2 (List.mem_cons_of_mem _ hg2)) g hg

theorem foldl_ids_values_ne_nil (ids : List ℤ) (f : Finding) :
    ∀ (m : List (ℤ × List Finding)), (∀ g ∈ m, g.2 ≠ []) →
      ∀ g ∈ ids.foldl (fun m pid => upsertPanelFinding m pid f) m, g.2 ≠ [] := by
  induction ids with
  | nil => intro m hm; simpa using hm
  | cons i ids ih =>
    intro m hm
    simp only [List.foldl_cons]
    exact ih _ (upsert_values_ne_nil m i f hm)

theorem panelFindingsMap_values_ne_nil (findings : List Finding) :
    ∀ g ∈ panelFindingsMap findings, g.2 ≠ [] := by
  have main : ∀ (fs : List Finding) (m : List (ℤ × List Finding)),
      (∀ g ∈ m, g.2 ≠ []) →
      ∀ g ∈ fs.foldl
        (fun m f => f.panelIDs.foldl (fun m pid => upsertPanelFinding m pid f) m)
        m, g.2 ≠ [] := by
    intro fs
    induction fs with
    | nil => intro m hm; simpa using hm
    | cons f fs ih =>
      intro m hm
      simp only [List.foldl_cons]
      exact ih _ (foldl_ids_values_ne_nil f.panelIDs f m hm)
  exact main findings [] (by simp)

theorem scoreLookup_map (m : List (ℤ × List Finding)) (q : ℤ) :
    scoreLookup (m.map (fun g => (g.1, ComputeScore g.2))) q =
      (pfFind m q).map ComputeScore := by
  induction m with
  | nil => simp [scoreLookup, pfFind]
  | cons e rest ih =>
    obtain ⟨k, v⟩ := e
    by_cases hk : k = q <;> simp [scoreLookup, pfFind, hk, ih]

/-- C10 counterexample: a finding listing panel 1 twice in its
affected-panel list is counted twice by `computePanelScores`, so the
panel's score (77, from a doubled penalty of 30) differs from
`ComputeScore` of the sublist of findings referencing the panel
(87, from the single finding's penalty of 15). -/
theorem computePanelScores_double_count :
    scoreLookup (computePanelScores [c10Finding]) 1 = some 77 ∧
    ComputeScore ([c10Finding].filter (fun g => (1 : ℤ) ∈ g.panelIDs)) = 87 := by
  have hdup : ComputeScore [c10Finding, c10Finding] = 77 := by
    unfold ComputeScore
    have hp : penaltyOf [c10Finding, c10Finding] = 30 := by decide
    rw [hp]
    norm_num [round_eq]
  have hsingle : ComputeScore [c10Finding] = 87 := by
    unfold ComputeScore
    have hp : penaltyOf [c10Finding] = 15 := by decide
    rw [hp]
    norm_num [round_eq]
  constructor
  · have h1 : computePanelScores [c10Finding]
        = [(1, ComputeScore [c10Finding, c10Finding])] := rfl
    rw [h1, hdup]
    rfl
  · have h3 : [c10Finding].filter (fun g => (1 : ℤ) ∈ g.panelIDs)
        = [c10Finding] := rfl
    rw [h3, hsingle]

/-- C10 (amended): the per-panel score map has an entry for exactly
those panel IDs occurring in some finding's affected-panel list, and a
present panel's score is `ComputeScore` of the list containing each
finding once *per occurrence* of the panel ID in its `PanelIDs` (equal
to the sublist of findings referencing the panel whenever no finding
repeats a panel ID). -/
theorem computePanelScores_spec (findings : List Finding) (pid : ℤ) :
    scoreLookup (computePanelScores findings) pid =
      (if occList findings pid = [] then none
       else some (ComputeScore (occList findings pid))) ∧
    (occList findings pid = [] ↔ ∀ f ∈ findings, pid ∉ f.panelIDs) := by
  constructor
  · rw [computePanelScores, scoreLookup_map]
    by_cases hocc : occList findings pid = []
    · rw [if_pos hocc]
      cases hfind : pfFind (panelFindingsMap findings) pid with
      | none => simp
      | some fs =>
        exfalso
        have hget := pfFind_eq_pfGet _ _ _ hfind
        rw [pfGet_panelFindingsMap, hocc] at hget
        obtain ⟨g, hg, hv⟩ := pfFind_mem _ _ _ hfind
        exact panelFindingsMap_values_ne_nil findings g hg (hv.trans hget.symm)
    · rw [if_neg hocc]
      have hget : pfGet (panelFindingsMap findings) pid ≠ [] := by
        rw [pfGet_panelFindingsMap]
        exact hocc
      rw [pfFind_of_pfGet_ne _ _ hget, pfGet_panelFindingsMap]
      simp
  · unfold occList
    rw [List.flatMap_eq_nil_iff]
    constructor
    · intro h f hf
      have := h f hf
      simp only [List.replicate_eq_nil_iff, List.count_eq_zero] at this
      exact this
    · intro h f hf
      simp only [List.replicate_eq_nil_iff, List.count_eq_zero]
      exact h f hf

/-! ## Duplicate-rule characterization (C2) -/

theorem refGet_upsert (m : List (String × List PanelRef)) (k q : String)
    (v : PanelRef) :
    refGet (upsertRef m k v) q =
      if k = q then refGet m q ++ [v] else refGet m q := by
  induction m with
  | nil =>
    by_cases h : k = q <;> simp [upsertRef, refGet, h]
  | cons e rest ih =>
    obtain ⟨k', vs'⟩ := e
    by_cases h1 : k' = k
    · subst h1
      by_cases h2 : k' = q <;> simp [upsertRef, refGet, h2]
    · by_cases h2 : k' = q
      · subst h2
        have hkq : ¬ k = k' := fun hq => h1 hq.symm
        simp [upsertRef, refGet, h1, hkq]
      · simp [upsertRef, refGet, h1, h2, ih]

theorem refGet_fold (entries : List (String × PanelRef)) :
    ∀ (m : List (String × List PanelRef)) (q : String),
      refGet (entries.foldl (fun m e => upsertRef m e.1 e.2) m) q =
        refGet m q ++ (entries.filter (fun en => en.1 = q)).map (·.2) := by
  induction entries with
  | nil => intro m q; simp
  | cons e entries ih =>
    obtain ⟨k, v⟩ := e
    intro m q
    simp only [List.foldl_cons]
    rw [ih (upsertRef m k v) q, refGet_upsert]
    by_cases h : k = q
    · subst h
      simp [List.filter_cons]
    · rw [if_neg h]
      simp [List.filter_cons, h]

theorem refGet_groupByKey (entries : List (String × PanelRef)) (q : String) :
    refGet (groupByKey entries) q =
      (entries.filter (fun en => en.1 = q)).map (·.2) := by
  have h := refGet_fold entries [] q
  simpa [groupByKey, refGet] using h

theorem keys_upsert (m : List (String × List PanelRef)) (k : String)
    (v : PanelRef) :
    (upsertRef m k v).map (·.1) =
      if k ∈ m.map (·.1) then m.map (·.1) else m.map (·.1) ++ [k] := by
  induction m with
  | nil => simp [upsertRef]
  | cons e rest ih =>
    obtain ⟨k', vs'⟩ := e
    by_cases h : k' = k
    · subst h
      simp [upsertRef]
    · have h2 : ¬ k = k' := fun hq => h hq.symm
      by_cases hmem : k ∈ rest.map (·.1) <;>
        simp [upsertRef, h, h2, hmem, ih]

theorem keys_fold_nodup (entries : List (String × PanelRef)) :
    ∀ (m : List (String × List PanelRef)), (m.map (·.1)).Nodup →
      ((entries.foldl (fun m e => upsertRef m e.1 e.2) m).map (·.1)).Nodup := by
  induction entries with
  | nil => intro m hm; simpa using hm
  | cons e entries ih =>
    obtain ⟨k, v⟩ := e
    intro m hm
    simp only [List.foldl_cons]
    apply ih
    rw [keys_upsert]
    by_cases hmem : k ∈ m.map (·.1)
    · simpa [hmem] using hm
    · rw [if_neg hmem]
      simp [List.nodup_append, hm, hmem]

theorem keys_groupByKey_nodup (entries : List (String × PanelRef)) :
    ((groupByKey entries).map (·.1)).Nodup :=
  keys_fold_nodup entries [] (by simp)

theorem keys_fold_sub (entries : List (String × PanelRef)) :
    ∀ (m : List (String × List PanelRef)) (k : String),
      k ∈ (entries.foldl (fun m e => upsertRef m e.1 e.2) m).map (·.1) →
      k ∈ m.map (·.1) ∨ k ∈ entries.map (·.1) := by
  induction entries with
  | nil =>
    intro m k hk
    simp only [List.foldl_nil] at hk
    exact Or.inl hk
  | cons e entries ih =>
    obtain ⟨k', v⟩ := e
    intro m k hk
    simp only [List.foldl_cons] at hk
    rcases ih (upsertRef m k' v) k hk with h | h
    · rw [keys_upsert] at h
      by_cases hmem : k' ∈ m.map (·.1)
      · rw [if_pos hmem] at h
        exact Or.inl h
      · rw [if_neg hmem] at h
        rcases List.mem_append.mp h with h | h
        · exact Or.inl h
        · simp at h
          subst h
          exact Or.inr (by simp)
    · exact Or.inr (by simp [h])

theorem mem_nodup_eq_refGet (m : List (String × List PanelRef)) :
    (m.map (·.1)).Nodup → ∀ g ∈ m, refGet m g.1 = g.2 := by
  induction m with
  | nil =>
    intro _ g hg
    simp at hg
  | cons e rest ih =>
    obtain ⟨k, vs⟩ := e
    intro hnd g hg
    simp only [List.map_cons, List.nodup_cons] at hnd
    rcases List.mem_cons.mp hg with hg | hg
    · subst hg
      simp [refGet]
    · have hk : ¬ k = g.1 := by
        intro hq
        exact hnd.1 (by rw [hq]; exact List.mem_map_of_mem _ hg)
      simp only [refGet, if_neg hk]
      exact ih hnd.2 g hg

theorem refGet_ne_nil_mem (m : List (String × List PanelRef)) (q : String) :
    refGet m q ≠ [] → ∃ g ∈ m, g.1 = q := by
  induction m with
  | nil =>
    intro h
    simp [refGet] at h
  | cons e rest ih =>
    obtain ⟨k, vs⟩ := e
    intro h
    by_cases hk : k = q
    · exact ⟨(k, vs), by simp, hk⟩
    · simp only [refGet, if_neg hk] at h
      obtain ⟨g, hg, hq⟩ := ih h
      exact ⟨g, by simp [hg], hq⟩

theorem dedupRefs_length_le (refs : List PanelRef) :
    ∀ seen : List ℤ, (dedupRefs seen refs).length ≤ refs.length := by
  induction refs with
  | nil => intro seen; simp [dedupRefs]
  | cons r rest ih =>
    intro seen
    by_cases h : r.id ∈ seen
    · simp only [dedupRefs, if_pos h]
      calc (dedupRefs seen rest).length ≤ rest.length := ih seen
        _ ≤ (r :: rest).length := by simp
    · simp only [dedupRefs, if_neg h, List.length_cons]
      exact Nat.succ_le_succ (ih (r.id :: seen))

/-- C2 counterexample: on `dupDash` every expression is shared by at
most two distinct panels (so the claim says D8 emits nothing), yet D8
— which counts target occurrences, not distinct panels — emits a
finding because `"up"` occurs in three targets. -/
theorem duplicateQueries_two_panels_counterexample :
    (∀ k ∈ (d8Entries dupCtx.dashboard).map (·.1),
      d8DistinctPanelsSharing dupCtx.dashboard k ≤ 2) ∧
    DuplicateQueriesCheck dupCtx ≠ [] := by
  decide

/-- C2 (amended): Q9 emits no finding exactly when every normalized
expression in use spans at most two *distinct panels* (so three or
more distinct panels sharing one expression always fire, and two never
do); D8, however, counts *target occurrences* of each trimmed
expression across non-row panels — it emits no finding exactly when
every expression occurs in at most two targets, and so can fire with
only two (or even one) distinct panels involved. -/
theorem duplicateRules_fire_iff (ctx : AnalysisContext) :
    (DuplicateExpressionsCheck ctx = [] ↔
      ∀ k ∈ (q9Entries ctx.panels).map (·.1),
        distinctPanelsSharing ctx.panels k ≤ 2) ∧
    (DuplicateQueriesCheck ctx = [] ↔
      ∀ k ∈ (d8Entries ctx.dashboard).map (·.1),
        d8Occurrences ctx.dashboard k ≤ 2) := by
  constructor
  · unfold DuplicateExpressionsCheck
    rw [List.filterMap_eq_nil_iff]
    constructor
    · intro hnone k hk
      obtain ⟨en, hen, hk'⟩ := List.mem_map.mp hk
      have hfil : en ∈ (q9Entries ctx.panels).filter (fun e => e.1 = k) :=
        List.mem_filter.mpr ⟨hen, by simp [hk']⟩
      have hrg : refGet (groupByKey (q9Entries ctx.panels)) k ≠ [] := by
        rw [refGet_groupByKey]
        intro hnil
        rw [List.map_eq_nil_iff] at hnil
        rw [hnil] at hfil
        simp at hfil
      obtain ⟨g, hgmem, hg1⟩ := refGet_ne_nil_mem _ _ hrg
      have hg2 : g.2 =
          ((q9Entries ctx.panels).filter (fun e => e.1 = k)).map (·.2) := by
        have h := mem_nodup_eq_refGet _ (keys_groupByKey_nodup _) g hgmem
        rw [hg1, refGet_groupByKey] at h
        exact h.symm
      have hng := hnone g hgmem
      unfold distinctPanelsSharing
      rw [← hg2]
      by_cases hl : g.2.length ≤ 2
      · calc (dedupRefs [] g.2).length ≤ g.2.length := dedupRefs_length_le _ _
          _ ≤ 2 := hl
      · simp only [if_neg hl] at hng
        by_cases hd : (dedupRefs [] g.2).length ≤ 2
        · exact hd
        · simp [if_neg hd] at hng
    · intro hall g hgmem
      have hg1k : g.1 ∈ (q9Entries ctx.panels).map (·.1) := by
        rcases keys_fold_sub _ [] g.1 (List.mem_map_of_mem _ hgmem) with h | h
        · simp at h
        · exact h
      have hg2 := mem_nodup_eq_refGet _ (keys_groupByKey_nodup _) g hgmem
      rw [refGet_groupByKey] at hg2
      have hd := hall g.1 hg1k
      unfold distinctPanelsSharing at hd
      rw [hg2] at hd
      by_cases hl : g.2.length ≤ 2
      · simp only [if_pos hl]
      · simp only [if_neg hl, if_pos hd]
  · unfold DuplicateQueriesCheck
    rw [List.filterMap_eq_nil_iff]
    constructor
    · intro hnone k hk
      obtain ⟨en, hen, hk'⟩ := List.mem_map.mp hk
      have hfil : en ∈ (d8Entries ctx.dashboard).filter (fun e => e.1 = k) :=
        List.mem_filter.mpr ⟨hen, by simp [hk']⟩
      have hrg : refGet (groupByKey (d8Entries ctx.dashboard)) k ≠ [] := by
        rw [refGet_groupByKey]
        intro hnil
        rw [List.map_eq_nil_iff] at hnil
        rw [hnil] at hfil
        simp at hfil
      obtain ⟨g, hgmem, hg1⟩ := refGet_ne_nil_mem _ _ hrg
      have hg2 : g.2 =
          ((d8Entries ctx.dashboard).filter (fun e => e.1 = k)).map (·.2) := by
        have h := mem_nodup_eq_refGet _ (keys_groupByKey_nodup _) g hgmem
        rw [hg1, refGet_groupByKey] at h
        exact h.symm
      have hng := hnone g hgmem
      unfold d8Occurrences
      by_cases hl : g.2.length ≤ 2
      · have : g.2.length =
            ((d8Entries ctx.dashboard).filter (fun e => e.1 = k)).length := by
          rw [hg2, List.length_map]
        rw [← this]
        exact hl
      · simp [if_neg hl] at hng
    · intro hall g hgmem
      have hg1k : g.1 ∈ (d8Entries ctx.dashboard).map (·.1) := by
        rcases keys_fold_sub _ [] g.1 (List.mem_map_of_mem _ hgmem) with h | h
        · simp at h
        · exact h
      have hg2 := mem_nodup_eq_refGet _ (keys_groupByKey_nodup _) g hgmem
      rw [refGet_groupByKey] at hg2
      have hd := hall g.1 hg1k
      unfold d8Occurrences at hd
      have hl : g.2.length ≤ 2 := by
        rw [← hg2, List.length_map]
        exact hd
      simp only [if_pos hl]

/-! ## Scanner safety (C9) and preprocessor idempotence (C3) -/

/-- C9: the variable-reference scanner is total (it is a function) and
leaves malformed references untouched: a trailing `$`, a `$` followed
by neither an identifier-start character nor `{`, and a `${...}` with
no closing brace are all passed through unchanged. -/
theorem replaceRefs_passthrough (c : Char) (rest : List Char) :
    replaceRefs ['$'] = ['$'] ∧
    (isIdentStart c = false → c ≠ '{' →
      replaceRefs ('$' :: c :: rest) = '$' :: replaceRefs (c :: rest)) ∧
    ('}' ∉ rest → replaceRefs ('$' :: '{' :: rest) = '$' :: '{' :: replaceRefs rest) := by
  refine ⟨rfl, ?_, ?_⟩
  · intro h1 h2
    simp [replaceRefs, replaceRefsGo, h1, h2]
  · intro hb
    simp [replaceRefs, replaceRefsGo, hb]

/-- Witness for `replaceRefs_passthrough` at concrete inputs. -/
theorem replaceRefs_passthrough_witness :
    isIdentStart '.' = false ∧ ('.' : Char) ≠ '{' ∧ ('}' : Char) ∉ ['a'] ∧
    replaceRefs ['$', '.', 'a'] = '$' :: replaceRefs ['.', 'a'] ∧
    replaceRefs ['$', '{', 'a'] = '$' :: '{' :: replaceRefs ['a'] := by
  refine ⟨by decide, by decide, by decide, ?_, ?_⟩
  · exact (replaceRefs_passthrough '.' ['a']).2.1 (by decide) (by decide)
  · exact (replaceRefs_passthrough '.' ['a']).2.2 (by decide)

theorem dropThroughBrace_length_le (l : List Char) :
    (dropThroughBrace l).length ≤ l.length := by
  induction l with
  | nil => simp [dropThroughBrace]
  | cons a as ih =>
    by_cases ha : a = '}' <;> simp [dropThroughBrace, ha] <;> omega

theorem ddFree_tail {c : Char} {rest : List Char} (h : ddFree (c :: rest)) :
    ddFree rest := h.tail

theorem ddFree_dropThroughBrace {l : List Char} (h : ddFree l) :
    ddFree (dropThroughBrace l) := by
  induction l with
  | nil => exact h
  | cons a as ih =>
    simp only [dropThroughBrace]
    by_cases ha : a = '}'
    · rw [if_pos ha]
      exact h.tail
    · rw [if_neg ha]
      exact ih h.tail

theorem ddFree_dropWhile (p : Char → Bool) {l : List Char} (h : ddFree l) :
    ddFree (l.dropWhile p) := by
  induction l with
  | nil => exact h
  | cons a as ih =>
    by_cases ha : p a
    · rw [List.dropWhile_cons_of_pos ha]
      exact ih h.tail
    · rwa [List.dropWhile_cons_of_neg ha]

theorem ddFree_drop (n : ℕ) {l : List Char} (h : ddFree l) :
    ddFree (l.drop n) := by
  induction n generalizing l with
  | zero => exact h
  | succ n ih =>
    cases l with
    | nil => exact h
    | cons a as =>
      rw [List.drop_succ_cons]
      exact ih h.tail

/-! Step equations for `noRefB` and `replaceRefsGo`. -/

theorem noRefB_nil : noRefB [] = true := rfl

theorem noRefB_dollar_nil : noRefB ['$'] = true := rfl

theorem noRefB_dollar_brace (rest2 : List Char) :
    noRefB ('$' :: '{' :: rest2) = (decide ('}' ∉ rest2) && noRefB rest2) := by
  simp [noRefB]

theorem noRefB_dollar_ident {c2 : Char} (hb : c2 ≠ '{')
    (hi : isIdentStart c2 = true) (rest2 : List Char) :
    noRefB ('$' :: c2 :: rest2) = false := by
  simp [noRefB, hb, hi]

theorem noRefB_dollar_other {c2 : Char} (hb : c2 ≠ '{')
    (hi : isIdentStart c2 = false) (rest2 : List Char) :
    noRefB ('$' :: c2 :: rest2) = noRefB (c2 :: rest2) := by
  simp [noRefB, hb, hi]

theorem noRefB_cons_ne {c : Char} (h : c ≠ '$') (rest : List Char) :
    noRefB (c :: rest) = noRefB rest := by
  cases rest with
  | nil => simp [noRefB, h]
  | cons c2 rest2 => simp [noRefB, h]

theorem rrGo_nil (fuel : ℕ) : replaceRefsGo fuel [] = [] := by
  cases fuel <;> rfl

theorem rrGo_cons_ne {c : Char} (h : c ≠ '$') (fuel : ℕ) (rest : List Char) :
    replaceRefsGo (fuel + 1) (c :: rest) = c :: replaceRefsGo fuel rest := by
  cases rest with
  | nil => simp [replaceRefsGo, h]
  | cons c2 rest2 => simp [replaceRefsGo, h]

theorem rrGo_dollar_nil (fuel : ℕ) : replaceRefsGo (fuel + 1) ['$'] = ['$'] := by
  simp [replaceRefsGo]

theorem rrGo_brace_closed {rest2 : List Char} (h : '}' ∈ rest2) (fuel : ℕ) :
    replaceRefsGo (fuel + 1) ('$' :: '{' :: rest2) =
      "placeholder".data ++ replaceRefsGo fuel (dropThroughBrace rest2) := by
  simp [replaceRefsGo, h]

theorem rrGo_brace_open {rest2 : List Char} (h : '}' ∉ rest2) (fuel : ℕ) :
    replaceRefsGo (fuel + 1) ('$' :: '{' :: rest2) =
      '$' :: replaceRefsGo fuel ('{' :: rest2) := by
  simp [replaceRefsGo, h]

theorem rrGo_dollar_ident {c2 : Char} (hb : c2 ≠ '{')
    (hi : isIdentStart c2 = true) (fuel : ℕ) (rest2 : List Char) :
    replaceRefsGo (fuel + 1) ('$' :: c2 :: rest2) =
      "placeholder".data ++
        replaceRefsGo fuel ((c2 :: rest2).dropWhile isIdentChar) := by
  simp [replaceRefsGo, hb, hi]

theorem rrGo_dollar_other {c2 : Char} (hb : c2 ≠ '{')
    (hi : isIdentStart c2 = false) (fuel : ℕ) (rest2 : List Char) :
    replaceRefsGo (fuel + 1) ('$' :: c2 :: rest2) =
      '$' :: replaceRefsGo fuel (c2 :: rest2) := by
  simp [replaceRefsGo, hb, hi]

theorem replaceRefsGo_fixpoint :
    ∀ (fuel : ℕ) (s : List Char), s.length ≤ fuel → noRefB s = true →
      replaceRefsGo fuel s = s := by
  intro fuel
  induction fuel with
  | zero =>
    intro s hlen _
    cases s with
    | nil => rfl
    | cons c rest => simp at hlen
  | succ fuel ih =>
    intro s hlen hno
    cases s with
    | nil => rfl
    | cons c rest =>
      by_cases hc : c = '$'
      · subst hc
        cases rest with
        | nil => exact rrGo_dollar_nil fuel
        | cons c2 rest2 =>
          by_cases hb : c2 = '{'
          · subst hb
            rw [noRefB_dollar_brace] at hno
            simp only [Bool.and_eq_true, decide_eq_true_eq] at hno
            rw [rrGo_brace_open hno.1]
            have h2 : replaceRefsGo fuel ('{' :: rest2) = '{' :: rest2 := by
              apply ih
              · simp only [List.length_cons] at hlen ⊢
                omega
              · rw [noRefB_cons_ne (by decide)]
                exact hno.2
            rw [h2]
          · by_cases hi : isIdentStart c2
            · rw [noRefB_dollar_ident hb hi] at hno
              exact absurd hno (by simp)
            · rw [noRefB_dollar_other hb (by simpa using hi)] at hno
              rw [rrGo_dollar_other hb (by simpa using hi)]
              rw [ih (c2 :: rest2) (by simp only [List.length_cons] at hlen ⊢; omega) hno]
      · rw [rrGo_cons_ne hc]
        rw [noRefB_cons_ne hc] at hno
        rw [ih rest (by simp only [List.length_cons] at hlen; omega) hno]

theorem closeBrace_not_mem_replaceRefsGo :
    ∀ (fuel : ℕ) (s : List Char), '}' ∉ s →
      '}' ∉ replaceRefsGo fuel s := by
  intro fuel
  induction fuel with
  | zero =>
    intro s hs
    cases s with
    | nil => simp [rrGo_nil]
    | cons c rest => exact hs
  | succ fuel ih =>
    intro s hs
    cases s with
    | nil => simp [rrGo_nil]
    | cons c rest =>
      have hc_ne : c ≠ '}' := by
        intro hcb
        exact hs (by simp [hcb])
      have hrest : '}' ∉ rest := fun hmem => hs (by simp [hmem])
      by_cases hc : c = '$'
      · subst hc
        cases rest with
        | nil => simp [rrGo_dollar_nil]
        | cons c2 rest2 =>
          have hrest2 : '}' ∉ rest2 := fun hmem => hrest (by simp [hmem])
          by_cases hb : c2 = '{'
          · subst hb
            rw [rrGo_brace_open hrest2]
            intro hmem
            rcases List.mem_cons.mp hmem with h | h
            · exact absurd h.symm (by decide)
            · exact ih ('{' :: rest2) hrest h
          · by_cases hi : isIdentStart c2
            · rw [rrGo_dollar_ident hb hi]
              intro hmem
              rcases List.mem_append.mp hmem with h | h
              · revert h
                decide
              · refine ih _ ?_ h
                have hsub : List.Sublist ((c2 :: rest2).dropWhile isIdentChar)
                    (c2 :: rest2) := (List.dropWhile_suffix _).sublist
                exact fun hmem2 => hrest (hsub.mem hmem2)
            · rw [rrGo_dollar_other hb (by simpa using hi)]
              intro hmem
              rcases List.mem_cons.mp hmem with h | h
              · exact absurd h.symm (by decide)
              · exact ih (c2 :: rest2) hrest h
      · rw [rrGo_cons_ne hc]
        intro hmem
        rcases List.mem_cons.mp hmem with h | h
        · exact hc_ne h.symm
        · exact ih rest hrest h

theorem noRefB_append_no_dollar (p : List Char) (w : List Char)
    (hp : ∀ c ∈ p, c ≠ '$') : noRefB (p ++ w) = noRefB w := by
  induction p with
  | nil => simp
  | cons c p ih =>
    rw [List.cons_append, noRefB_cons_ne (hp c (by simp))]
    exact ih (fun c2 hc2 => hp c2 (by simp [hc2]))

theorem rrGo_eq_replaceRefs :
    ∀ (n : ℕ) (s : List Char) (f : ℕ), s.length ≤ n → s.length ≤ f →
      replaceRefsGo f s = replaceRefs s := by
  intro n
  induction n with
  | zero =>
    intro s f hn _
    cases s with
    | nil => rw [rrGo_nil, replaceRefs, rrGo_nil]
    | cons c rest => simp at hn
  | succ n ih =>
    intro s f hn hf
    cases s with
    | nil => rw [rrGo_nil, replaceRefs, rrGo_nil]
    | cons c rest =>
      simp only [List.length_cons] at hn hf
      obtain ⟨f2, rfl⟩ : ∃ f2, f = f2 + 1 := ⟨f - 1, by omega⟩
      have hwrap : replaceRefs (c :: rest) = replaceRefsGo (rest.length + 1) (c :: rest) := by
        rw [replaceRefs, List.length_cons]
      by_cases hc : c = '$'
      · subst hc
        cases rest with
        | nil => rw [rrGo_dollar_nil, hwrap, rrGo_dollar_nil]
        | cons c2 rest2 =>
          simp only [List.length_cons] at hn hf ⊢
          by_cases hb : c2 = '{'
          · subst hb
            by_cases hmem : '}' ∈ rest2
            · rw [rrGo_brace_closed hmem, hwrap, rrGo_brace_closed hmem]
              have hd := dropThroughBrace_length_le rest2
              rw [ih (dropThroughBrace rest2) f2 (by omega) (by omega)]
              simp only [List.length_cons]
              rw [ih (dropThroughBrace rest2) (rest2.length + 1) (by omega) (by omega)]
            · rw [rrGo_brace_open hmem, hwrap, rrGo_brace_open hmem]
              rw [ih ('{' :: rest2) f2 (by simp only [List.length_cons]; omega) (by simp only [List.length_cons]; omega)]
              simp only [List.length_cons]
              rw [ih ('{' :: rest2) (rest2.length + 1) (by simp only [List.length_cons]; omega) (by simp only [List.length_cons]; omega)]
          · by_cases hi : isIdentStart c2
            · rw [rrGo_dollar_ident hb hi, hwrap, rrGo_dollar_ident hb hi]
              have hd : ((c2 :: rest2).dropWhile isIdentChar).length ≤ rest2.length := by
                have hic : isIdentChar c2 = true := by
                  simp [isIdentChar, hi]
                rw [List.dropWhile_cons_of_pos hic]
                have := ((List.dropWhile_suffix (l := rest2)
                    isIdentChar).sublist).length_le
                omega
              rw [ih ((c2 :: rest2).dropWhile isIdentChar) f2 (by omega) (by omega)]
              simp only [List.length_cons]
              rw [ih ((c2 :: rest2).dropWhile isIdentChar) (rest2.length + 1) (by omega) (by omega)]
            · rw [rrGo_dollar_other hb (by simpa using hi), hwrap,
                  rrGo_dollar_other hb (by simpa using hi)]
              rw [ih (c2 :: rest2) f2 (by simp only [List.length_cons]; omega) (by simp only [List.length_cons]; omega)]
              simp only [List.length_cons]
              rw [ih (c2 :: rest2) (rest2.length + 1) (by simp only [List.length_cons]; omega) (by simp only [List.length_cons]; omega)]
      · rw [rrGo_cons_ne hc, hwrap, rrGo_cons_ne hc]
        rw [ih rest f2 (by omega) (by omega),
            ih rest rest.length (by omega) (by omega)]

/-- Wrapper-level step equations for `replaceRefs`. -/
theorem rr_nil : replaceRefs [] = [] := rfl

theorem rr_dollar_nil : replaceRefs ['$'] = ['$'] := rfl

theorem rr_cons_ne {c : Char} (h : c ≠ '$') (rest : List Char) :
    replaceRefs (c :: rest) = c :: replaceRefs rest := by
  rw [replaceRefs, List.length_cons, rrGo_cons_ne h,
      rrGo_eq_replaceRefs rest.length rest rest.length le_rfl le_rfl]

theorem rr_brace_closed {rest2 : List Char} (h : '}' ∈ rest2) :
    replaceRefs ('$' :: '{' :: rest2) =
      "placeholder".data ++ replaceRefs (dropThroughBrace rest2) := by
  have hd := dropThroughBrace_length_le rest2
  rw [replaceRefs, List.length_cons, List.length_cons, rrGo_brace_closed h,
      rrGo_eq_replaceRefs (rest2.length + 1) _ _ (by omega) (by omega)]

theorem rr_brace_open {rest2 : List Char} (h : '}' ∉ rest2) :
    replaceRefs ('$' :: '{' :: rest2) = '$' :: replaceRefs ('{' :: rest2) := by
  rw [replaceRefs, List.length_cons, List.length_cons, rrGo_brace_open h,
      rrGo_eq_replaceRefs (rest2.length + 1) _ _ (by simp) (by simp)]

theorem rr_dollar_ident {c2 : Char} (hb : c2 ≠ '{')
    (hi : isIdentStart c2 = true) (rest2 : List Char) :
    replaceRefs ('$' :: c2 :: rest2) =
      "placeholder".data ++ replaceRefs ((c2 :: rest2).dropWhile isIdentChar) := by
  have hd : ((c2 :: rest2).dropWhile isIdentChar).length ≤ rest2.length := by
    have hic : isIdentChar c2 = true := by
      simp [isIdentChar, hi]
    rw [List.dropWhile_cons_of_pos hic]
    have := ((List.dropWhile_suffix (l := rest2) isIdentChar).sublist).length_le
    omega
  rw [replaceRefs, List.length_cons, List.length_cons, rrGo_dollar_ident hb hi,
      rrGo_eq_replaceRefs (rest2.length + 1) _ _ (by omega) (by omega)]

theorem rr_dollar_other {c2 : Char} (hb : c2 ≠ '{')
    (hi : isIdentStart c2 = false) (rest2 : List Char) :
    replaceRefs ('$' :: c2 :: rest2) = '$' :: replaceRefs (c2 :: rest2) := by
  rw [replaceRefs, List.length_cons, List.length_cons, rrGo_dollar_other hb hi,
      rrGo_eq_replaceRefs (rest2.length + 1) _ _ (by simp) (by simp)]

theorem replaceRefs_fixpoint {s : List Char} (h : noRefB s = true) :
    replaceRefs s = s :=
  replaceRefsGo_fixpoint s.length s le_rfl h

theorem closeBrace_not_mem_replaceRefs {s : List Char} (h : '}' ∉ s) :
    '}' ∉ replaceRefs s :=
  closeBrace_not_mem_replaceRefsGo s.length s h

theorem noRefB_replaceRefs :
    ∀ (n : ℕ) (s : List Char), s.length ≤ n → ddFree s →
      noRefB (replaceRefs s) = true := by
  intro n
  induction n with
  | zero =>
    intro s hn _
    cases s with
    | nil => rw [rr_nil, noRefB_nil]
    | cons c rest => simp at hn
  | succ n ih =>
    intro s hn hdd
    cases s with
    | nil => rw [rr_nil, noRefB_nil]
    | cons c rest =>
      simp only [List.length_cons] at hn
      by_cases hc : c = '$'
      · subst hc
        cases rest with
        | nil => rw [rr_dollar_nil, noRefB_dollar_nil]
        | cons c2 rest2 =>
          simp only [List.length_cons] at hn
          have hc2ne : c2 ≠ '$' := by
            intro h2
            exact (List.chain'_cons.mp hdd).1 ⟨rfl, h2⟩
          by_cases hb : c2 = '{'
          · subst hb
            by_cases hmem : '}' ∈ rest2
            · rw [rr_brace_closed hmem,
                  noRefB_append_no_dollar _ _ (by decide)]
              have hd := dropThroughBrace_length_le rest2
              exact ih (dropThroughBrace rest2) (by omega)
                (ddFree_dropThroughBrace (ddFree_tail (ddFree_tail hdd)))
            · rw [rr_brace_open hmem, rr_cons_ne (by decide)]
              rw [noRefB_dollar_brace]
              have h1 : '}' ∉ replaceRefs rest2 :=
                closeBrace_not_mem_replaceRefs
                  (fun hx => hmem hx)
              have h2 : noRefB (replaceRefs rest2) = true :=
                ih rest2 (by omega) (ddFree_tail (ddFree_tail hdd))
              simp [h1, h2]
          · by_cases hi : isIdentStart c2
            · rw [rr_dollar_ident hb hi,
                  noRefB_append_no_dollar _ _ (by decide)]
              have hd : ((c2 :: rest2).dropWhile isIdentChar).length ≤ rest2.length := by
                have hic : isIdentChar c2 = true := by
                  simp [isIdentChar, hi]
                rw [List.dropWhile_cons_of_pos hic]
                have := ((List.dropWhile_suffix (l := rest2)
                    isIdentChar).sublist).length_le
                omega
              exact ih ((c2 :: rest2).dropWhile isIdentChar) (by omega)
                (ddFree_dropWhile _ (ddFree_tail hdd))
            · rw [rr_dollar_other hb (by simpa using hi)]
              have h2 : noRefB (replaceRefs (c2 :: rest2)) = true :=
                ih (c2 :: rest2) (by simp; omega) (ddFree_tail hdd)
              rw [rr_cons_ne hc2ne] at h2 ⊢
              rw [noRefB_dollar_other hb (by simpa using hi)]
              exact h2
      · rw [rr_cons_ne hc, noRefB_cons_ne hc]
        exact ih rest (by omega) (ddFree_tail hdd)

theorem raGo_nil (old new_ : List Char) (f : ℕ) :
    replaceAllGo old new_ f [] = [] := by
  cases f <;> rfl

theorem raGo_match {old : List Char} {c : Char} {rest : List Char}
    (h : old ≠ [] ∧ old.isPrefixOf (c :: rest)) (new_ : List Char) (f : ℕ) :
    replaceAllGo old new_ (f + 1) (c :: rest) =
      new_ ++ replaceAllGo old new_ f ((c :: rest).drop old.length) := by
  simp only [replaceAllGo, if_pos h]

theorem raGo_nomatch {old : List Char} {c : Char} {rest : List Char}
    (h : ¬(old ≠ [] ∧ old.isPrefixOf (c :: rest))) (new_ : List Char) (f : ℕ) :
    replaceAllGo old new_ (f + 1) (c :: rest) =
      c :: replaceAllGo old new_ f rest := by
  simp only [replaceAllGo, if_neg h]

theorem noRefB_tail {c : Char} {rest : List Char}
    (h : noRefB (c :: rest) = true) : noRefB rest = true := by
  by_cases hc : c = '$'
  · subst hc
    cases rest with
    | nil => rfl
    | cons c2 rest2 =>
      by_cases hb : c2 = '{'
      · subst hb
        rw [noRefB_dollar_brace] at h
        simp only [Bool.and_eq_true, decide_eq_true_eq] at h
        rw [noRefB_cons_ne (by decide)]
        exact h.2
      · by_cases hi : isIdentStart c2
        · rw [noRefB_dollar_ident hb hi] at h
          exact absurd h (by simp)
        · rwa [noRefB_dollar_other hb (by simpa using hi)] at h
  · rwa [noRefB_cons_ne hc] at h

theorem raGo_id_of_never_matching (old new_ : List Char)
    (H : ∀ s, noRefB s = true → ¬ (old.isPrefixOf s = true)) :
    ∀ (f : ℕ) (s : List Char), noRefB s = true →
      replaceAllGo old new_ f s = s := by
  intro f
  induction f with
  | zero =>
    intro s _
    cases s <;> rfl
  | succ f ih =>
    intro s hno
    cases s with
    | nil => rfl
    | cons c rest =>
      rw [raGo_nomatch (fun hand => H _ hno hand.2)]
      rw [ih rest (noRefB_tail hno)]

theorem noRefB_no_prefix_ident {c2 : Char} (hb : c2 ≠ '{')
    (hi : isIdentStart c2 = true) (u : List Char) :
    ∀ s, noRefB s = true → ¬ (('$' :: c2 :: u).isPrefixOf s = true) := by
  intro s hno hp
  rw [ List.isPrefixOf_iff_prefix] at hp
  obtain ⟨t, ht⟩ := hp
  rw [← ht] at hno
  simp only [List.cons_append] at hno
  rw [noRefB_dollar_ident hb hi] at hno
  exact absurd hno (by simp)

theorem noRefB_no_prefix_braced {u : List Char} (hu : '}' ∈ u) :
    ∀ s, noRefB s = true → ¬ (('$' :: '{' :: u).isPrefixOf s = true) := by
  intro s hno hp
  rw [ List.isPrefixOf_iff_prefix] at hp
  obtain ⟨t, ht⟩ := hp
  rw [← ht] at hno
  simp only [List.cons_append] at hno
  rw [noRefB_dollar_brace] at hno
  simp only [Bool.and_eq_true, decide_eq_true_eq] at hno
  exact hno.1 (List.mem_append.mpr (Or.inl hu))

theorem durationsPass_id_of_noRefB {y : List Char} (h : noRefB y = true) :
    durationsPass y = y := by
  have hrate : ∀ s, noRefB s = true →
      ¬ ("$__rate_interval".data.isPrefixOf s = true) := by
    intro s hs
    exact noRefB_no_prefix_ident (by decide) (by decide) _ s hs
  have hint : ∀ s, noRefB s = true →
      ¬ ("$__interval".data.isPrefixOf s = true) := by
    intro s hs
    exact noRefB_no_prefix_ident (by decide) (by decide) _ s hs
  have hrange : ∀ s, noRefB s = true →
      ¬ ("$__range".data.isPrefixOf s = true) := by
    intro s hs
    exact noRefB_no_prefix_ident (by decide) (by decide) _ s hs
  have hbrate : ∀ s, noRefB s = true →
      ¬ ("${__rate_interval}".data.isPrefixOf s = true) := by
    intro s hs
    exact noRefB_no_prefix_braced (by decide) s hs
  have hbint : ∀ s, noRefB s = true →
      ¬ ("${__interval}".data.isPrefixOf s = true) := by
    intro s hs
    exact noRefB_no_prefix_braced (by decide) s hs
  have hbrange : ∀ s, noRefB s = true →
      ¬ ("${__range}".data.isPrefixOf s = true) := by
    intro s hs
    exact noRefB_no_prefix_braced (by decide) s hs
  show List.foldl _ y _ = y
  simp only [grafanaDurationVars, List.foldl_cons, List.foldl_nil]
  rw [show replaceAllL "$__rate_interval".data "5m".data y = y from
        raGo_id_of_never_matching _ _ hrate y.length y h,
      show replaceAllL "$__interval".data "5m".data y = y from
        raGo_id_of_never_matching _ _ hint y.length y h,
      show replaceAllL "$__range".data "5m".data y = y from
        raGo_id_of_never_matching _ _ hrange y.length y h,
      show replaceAllL "${__rate_interval}".data "5m".data y = y from
        raGo_id_of_never_matching _ _ hbrate y.length y h,
      show replaceAllL "${__interval}".data "5m".data y = y from
        raGo_id_of_never_matching _ _ hbint y.length y h,
      show replaceAllL "${__range}".data "5m".data y = y from
        raGo_id_of_never_matching _ _ hbrange y.length y h]

theorem raGo_head_cases (old : List Char) (f : ℕ) (s : List Char) :
    replaceAllGo old "5m".data f s = [] ∨
    (∃ w, replaceAllGo old "5m".data f s = '5' :: w) ∨
    (∃ c rest w, s = c :: rest ∧ replaceAllGo old "5m".data f s = c :: w) := by
  cases f with
  | zero =>
    cases s with
    | nil => exact Or.inl rfl
    | cons c rest => exact Or.inr (Or.inr ⟨c, rest, rest, rfl, rfl⟩)
  | succ f =>
    cases s with
    | nil => exact Or.inl rfl
    | cons c rest =>
      by_cases hm : old ≠ [] ∧ old.isPrefixOf (c :: rest)
      · rw [raGo_match hm]
        exact Or.inr (Or.inl ⟨'m' :: replaceAllGo old "5m".data f ((c :: rest).drop old.length), rfl⟩)
      · rw [raGo_nomatch hm]
        exact Or.inr (Or.inr ⟨c, rest, replaceAllGo old "5m".data f rest, rfl, rfl⟩)

theorem raGo_ddFree (old : List Char) :
    ∀ (f : ℕ) (s : List Char), ddFree s →
      ddFree (replaceAllGo old "5m".data f s) := by
  intro f
  induction f with
  | zero =>
    intro s hs
    cases s with
    | nil => exact hs
    | cons c rest => exact hs
  | succ f ih =>
    intro s hs
    cases s with
    | nil => exact hs
    | cons c rest =>
      by_cases hm : old ≠ [] ∧ old.isPrefixOf (c :: rest)
      · rw [raGo_match hm]
        have hdrop : ddFree ((c :: rest).drop old.length) := ddFree_drop _ hs
        have hw := ih _ hdrop
        show List.Chain' _ ('5' :: 'm' :: _)
        rw [List.chain'_cons]
        refine ⟨by decide, ?_⟩
        rw [List.chain'_cons']
        refine ⟨?_, hw⟩
        intro b _
        exact fun hx => absurd hx.1 (by decide)
      · rw [raGo_nomatch hm]
        have hw := ih rest hs.tail
        rw [ddFree, List.chain'_cons']
        refine ⟨?_, hw⟩
        intro b hb
        rcases raGo_head_cases old f rest with hcase | hcase | hcase
        · rw [hcase] at hb
          simp at hb
        · obtain ⟨w, hweq⟩ := hcase
          rw [hweq] at hb
          simp only [List.head?_cons, Option.mem_def, Option.some_inj] at hb
          subst hb
          exact fun hx => absurd hx.2 (by decide)
        · obtain ⟨c2, rest2, w, hrest, hweq⟩ := hcase
          rw [hweq] at hb
          simp only [List.head?_cons, Option.mem_def, Option.some_inj] at hb
          subst hb
          subst hrest
          exact (List.chain'_cons.mp hs).1

theorem ddFree_durationsPass {s : List Char} (h : ddFree s) :
    ddFree (durationsPass s) := by
  show ddFree (List.foldl _ s _)
  simp only [grafanaDurationVars, List.foldl_cons, List.foldl_nil]
  exact raGo_ddFree _ _ _ (raGo_ddFree _ _ _ (raGo_ddFree _ _ _
    (raGo_ddFree _ _ _ (raGo_ddFree _ _ _ (raGo_ddFree _ _ _ h)))))

/-- C3 counterexample: substitution is not idempotent.  On `"$$foo"`
the first pass leaves the leading `$` (its follower `$` is neither an
identifier character nor `{`) and rewrites `$foo`, producing
`"$placeholder"` — which now contains the brand-new reference
`$placeholder`, so a second pass rewrites it again to `"placeholder"`. -/
theorem replaceTemplateVars_not_idempotent :
    ReplaceTemplateVars (ReplaceTemplateVars "$$foo") ≠
      ReplaceTemplateVars "$$foo" := by
  decide

/-- C3 (amended): substitution is idempotent on every input with no
two adjacent `$` characters — the counterexample's `$$name` shape,
where pass one manufactures a fresh `$name` reference, is the only way
a second pass can make progress. -/
theorem replaceTemplateVars_idempotent_ddFree (x : String)
    (h : ddFree x.data) :
    ReplaceTemplateVars (ReplaceTemplateVars x) = ReplaceTemplateVars x := by
  have hRT : ∀ z : String,
      ReplaceTemplateVars z = ⟨replaceRefs (durationsPass z.data)⟩ :=
    fun z => rfl
  rw [hRT x, hRT ⟨replaceRefs (durationsPass x.data)⟩]
  have hz : ddFree (durationsPass x.data) := ddFree_durationsPass h
  have hy : noRefB (replaceRefs (durationsPass x.data)) = true :=
    noRefB_replaceRefs (durationsPass x.data).length _ le_rfl hz
  show (⟨replaceRefs (durationsPass (replaceRefs (durationsPass x.data)))⟩ : String) = _
  rw [durationsPass_id_of_noRefB hy, replaceRefs_fixpoint hy]

/-- Witness for `replaceTemplateVars_idempotent_ddFree` at a concrete
expression. -/
theorem replaceTemplateVars_idempotent_witness :
    ddFree ("rate(http_requests_total[$__rate_interval]) > $limit" : String).data ∧
    ReplaceTemplateVars
        (ReplaceTemplateVars "rate(http_requests_total[$__rate_interval]) > $limit") =
      ReplaceTemplateVars "rate(http_requests_total[$__rate_interval]) > $limit" :=
  ⟨by decide, replaceTemplateVars_idempotent_ddFree _ (by decide)⟩

end DashboardAdvisor
